import Mathlib

/-!
A verification development for a shortest-path engine over directed,
non-negatively weighted graphs.  The definitions below are a shallow
embedding of the Python sources:

  * `src/data_structures/binary_heap.py`    → namespace `BinaryHeap`
  * `src/data_structures/radix_heap.py`     → namespace `RadixHeap`
  * `src/data_structures/fibonacci_heap.py` → namespace `FibHeap`
  * `src/algorithms/dijkstra.py`            → `dijkstra`
  * `src/algorithms/bidirectional_skewed.py`→ namespace `BidirectionalDijkstra`
  * `src/algorithms/contraction_hierarchy.py` and
    `src/algorithms/contraction_hierarchy_all.py` → namespaces `CH`, `CHAll`

Modelling conventions:

  * Node identifiers are `Nat`; numeric values are `Q` (Python numbers),
    and `QI := Option Q` models a Python float that may be `math.inf`
    (`none` is `+∞`).
  * Python `dict` is an insertion-ordered association list (`Dict`):
    updating an existing key keeps its position, a new key is appended.
  * Python exceptions are an explicit `Err` value threaded with `Except`.
  * Unbounded `while` loops take a fuel argument; `Err.fuelOut` marks
    fuel exhaustion (it never occurs in any run we reason about, and a
    result other than `fuelOut` corresponds to an actual terminating
    Python execution with the same outcome).
-/

namespace SPC

abbrev Node := Nat

/-- Exact numeric values as unreduced fractions `num / den` with a positive
denominator, covering Python's ints and floats with exact arithmetic.  All
operations are plain integer arithmetic, so concrete runs reduce inside the
kernel. -/
structure Q where
  num : Int
  den : Int
  deriving DecidableEq, Repr

instance (n : Nat) : OfNat Q n := ⟨⟨n, 1⟩⟩

/-- A structural (fuel-driven) `Nat.log2`, reducible inside the kernel. -/
def natLog2Aux : Nat → Nat → Nat
  | _, 0 => 0
  | n, fuel + 1 => if 2 ≤ n then natLog2Aux (n / 2) fuel + 1 else 0

/-- `⌊log₂ n⌋` (`0` for `n = 0`), same value as `Nat.log2`. -/
def natLog2 (n : Nat) : Nat := natLog2Aux n n

namespace Q

/-- Embed a natural number. -/
def ofNat (n : Nat) : Q := ⟨n, 1⟩

/-- Embed an integer. -/
def ofInt (n : Int) : Q := ⟨n, 1⟩

/-- Python `+`. -/
def add (a b : Q) : Q := ⟨a.num * b.den + b.num * a.den, a.den * b.den⟩

/-- Python `-`. -/
def sub (a b : Q) : Q := ⟨a.num * b.den - b.num * a.den, a.den * b.den⟩

/-- Python `*`. -/
def mul (a b : Q) : Q := ⟨a.num * b.num, a.den * b.den⟩

/-- Python `==`, by cross multiplication. -/
def beq (a b : Q) : Bool := a.num * b.den == b.num * a.den

/-- Python `<`. -/
def blt (a b : Q) : Bool := a.num * b.den < b.num * a.den

/-- Python `<=`. -/
def ble (a b : Q) : Bool := a.num * b.den ≤ b.num * a.den

/-- Python `int(x)`: truncation toward zero. -/
def toIntTrunc (a : Q) : Int := a.num / a.den

/-- An integer power of two. -/
def twoPow (k : Nat) : Q := ⟨(2 : Int) ^ k, 1⟩

/-- The doubling search behind `floorLog2` for arguments below one. -/
def floorLog2Neg (num den : Int) : Nat → Nat → Int
  | k, 0 => -(k : Int)
  | k, fuel + 1 =>
    if den ≤ num * (2 : Int) ^ k then -(k : Int)
    else floorLog2Neg num den (k + 1) fuel

/-- `math.floor(math.log2 a)` for positive `a`. -/
def floorLog2 (a : Q) : Int :=
  if a.den ≤ a.num then (natLog2 ((a.num / a.den).toNat) : Int)
  else floorLog2Neg a.num a.den 1 (a.den.natAbs + 2)

end Q

/-- Python numbers that may be `math.inf`: `none` is `+∞`, `some q` is finite. -/
abbrev QI := Option Q

/-- Strict `<` on possibly-infinite values, as for Python floats. -/
def qiLt : QI → QI → Bool
  | some a, some b => Q.blt a b
  | some _, none => true
  | none, _ => false

/-- Non-strict `≤` on possibly-infinite values, as for Python floats. -/
def qiLe : QI → QI → Bool
  | some a, some b => Q.ble a b
  | _, none => true
  | none, some _ => false

/-- Add a finite value to a possibly-infinite one (`inf + w = inf`). -/
def qiAdd : QI → Q → QI
  | none, _ => none
  | some a, w => some (Q.add a w)

/-- Add two possibly-infinite values. -/
def qiAdd2 : QI → QI → QI
  | none, _ => none
  | _, none => none
  | some a, some b => some (Q.add a b)

/-- Python exceptions relevant to the embedded code. -/
inductive Err where
  /-- `ValueError` raised by `insert` on a node already present. -/
  | dup
  /-- `KeyError` raised by `decrease_key` on an absent node. -/
  | missingNode
  /-- `ValueError` raised by the radix heap on a priority below `_last_extracted`. -/
  | monotonicity
  /-- `ValueError` raised by the heap factories on an unknown variant tag. -/
  | badVariant
  /-- `KeyError` raised by a `d[k]` read on a missing key. -/
  | keyError
  /-- `RuntimeError` (and other states unreachable in well-formed runs). -/
  | runtimeError
  /-- `IndexError` from an out-of-range sequence access. -/
  | indexError
  /-- Fuel exhaustion of the embedding (no Python counterpart). -/
  | fuelOut
  deriving DecidableEq, Repr

/-- Python `dict`: an insertion-ordered association list. -/
abbrev Dict (α β : Type) := List (α × β)

namespace Dict

variable {α β : Type} [DecidableEq α]

/-- `d.get(k)` as an `Option`. -/
def lookup : Dict α β → α → Option β
  | [], _ => none
  | (k, v) :: d, a => if k = a then some v else lookup d a

/-- `d.get(k, default)`. -/
def lookupD (d : Dict α β) (a : α) (dflt : β) : β := (d.lookup a).getD dflt

/-- `d[k]`, raising `KeyError` when the key is absent. -/
def getE (d : Dict α β) (a : α) : Except Err β :=
  match d.lookup a with
  | some v => .ok v
  | none => .error .keyError

/-- `d[k] = v`: update in place when present, append when new. -/
def set : Dict α β → α → β → Dict α β
  | [], a, b => [(a, b)]
  | (k, v) :: d, a, b => if k = a then (k, b) :: d else (k, v) :: set d a b

/-- `k in d`. -/
def mem (d : Dict α β) (a : α) : Bool := (d.lookup a).isSome

/-- `del d[k]`, `none` when the key is absent (Python raises `KeyError`). -/
def del : Dict α β → α → Option (Dict α β)
  | [], _ => none
  | (k, v) :: d, a => if k = a then some d else (del d a).map ((k, v) :: ·)

/-- `list(d.keys())`. -/
def keys (d : Dict α β) : List α := d.map Prod.fst

end Dict

/-- An adjacency mapping `{u: [(v, w), ...]}`. -/
abbrev Graph := Dict Node (List (Node × Q))

/-! ## Binary heap (`src/data_structures/binary_heap.py`) -/

/-- State of `BinaryHeap`: the array of `(node, priority)` pairs and the
node → index position map. -/
structure BinaryHeap where
  heap : List (Node × Q)
  pos : Dict Node Nat
  deriving DecidableEq, Repr

namespace BinaryHeap

/-- The empty heap (`BinaryHeap()`). -/
def init : BinaryHeap := ⟨[], []⟩

/-- `_swap(i, j)`: exchange two array slots and update the position map. -/
def swap (h : BinaryHeap) (i j : Nat) : Option BinaryHeap :=
  if i = j then some h
  else
    match h.heap.get? i, h.heap.get? j with
    | some xi, some xj =>
      some ⟨(h.heap.set i xj).set j xi, (h.pos.set xi.1 j).set xj.1 i⟩
    | _, _ => none

/-- `_sift_up(i)`; the fuel is the starting index plus one, which always
suffices because the parent index strictly decreases. -/
def siftUp (h : BinaryHeap) (i : Nat) : Nat → Option BinaryHeap
  | 0 => none
  | fuel + 1 =>
    if i > 0 then
      let p := (i - 1) / 2
      match h.heap.get? i, h.heap.get? p with
      | some xi, some xp =>
        if Q.blt xi.2 xp.2 then
          match h.swap i p with
          | some h1 => h1.siftUp p fuel
          | none => none
        else some h
      | _, _ => none
    else some h

/-- `_sift_down(i)`; the fuel is the array length plus one. -/
def siftDown (h : BinaryHeap) (i : Nat) : Nat → Option BinaryHeap
  | 0 => none
  | fuel + 1 =>
    let n := h.heap.length
    let l := 2 * i + 1
    let r := 2 * i + 2
    match h.heap.get? i with
    | none => none
    | some xi =>
      let s1 : Nat × Q :=
        match h.heap.get? l with
        | some xl => if l < n ∧ Q.blt xl.2 xi.2 then (l, xl.2) else (i, xi.2)
        | none => (i, xi.2)
      let s2 : Nat × Q :=
        match h.heap.get? r with
        | some xr => if r < n ∧ Q.blt xr.2 s1.2 then (r, xr.2) else s1
        | none => s1
      if s2.1 ≠ i then
        match h.swap i s2.1 with
        | some h1 => h1.siftDown s2.1 fuel
        | none => none
      else some h

/-- `insert(node, priority)`. -/
def insert (h : BinaryHeap) (n : Node) (p : Q) : Except Err BinaryHeap :=
  if h.pos.mem n then .error .dup
  else
    let heap1 := h.heap ++ [(n, p)]
    let idx := heap1.length - 1
    let h1 : BinaryHeap := ⟨heap1, h.pos.set n idx⟩
    match h1.siftUp idx (idx + 1) with
    | some h2 => .ok h2
    | none => .error .indexError

/-- `extract_min()`: returns `none` on an empty heap (Python's `(None, None)`). -/
def extractMin (h : BinaryHeap) : Except Err (Option (Node × Q) × BinaryHeap) :=
  if h.heap.isEmpty then .ok (none, h)
  else
    match h.swap 0 (h.heap.length - 1) with
    | none => .error .indexError
    | some h1 =>
      match h1.heap.getLast? with
      | none => .error .indexError
      | some np =>
        match h1.pos.del np.1 with
        | none => .error .keyError
        | some pos1 =>
          let h2 : BinaryHeap := ⟨h1.heap.dropLast, pos1⟩
          if h2.heap.isEmpty then .ok (some np, h2)
          else
            match h2.siftDown 0 (h2.heap.length + 1) with
            | some h3 => .ok (some np, h3)
            | none => .error .indexError

/-- `decrease_key(node, new_priority)`. -/
def decreaseKey (h : BinaryHeap) (n : Node) (p : Q) : Except Err BinaryHeap :=
  match h.pos.lookup n with
  | none => .error .missingNode
  | some idx =>
    match h.heap.get? idx with
    | none => .error .indexError
    | some x =>
      if Q.ble x.2 p then .ok h
      else
        let h1 : BinaryHeap := ⟨h.heap.set idx (x.1, p), h.pos⟩
        match h1.siftUp idx (idx + 1) with
        | some h2 => .ok h2
        | none => .error .indexError

/-- `node in heap` (via the `_pos` map). -/
def contains (h : BinaryHeap) (n : Node) : Bool := h.pos.mem n

/-- `len(heap)`. -/
def size (h : BinaryHeap) : Nat := h.heap.length

/-- `is_empty()`. -/
def isEmpty (h : BinaryHeap) : Bool := h.heap.isEmpty

/-- Least-priority array entry (first occurrence wins on ties). -/
def minEntry : List (Node × Q) → Option (Node × Q)
  | [] => none
  | x :: xs =>
    match minEntry xs with
    | none => some x
    | some y => if Q.blt y.2 x.2 then some y else some x

/-- Modelled from the spec: the queues' `peek` method is called by the
bidirectional search and the contraction-hierarchy preprocessor but is not
among the files at hand; per §4.D it returns the live `(n, p)` with the
smallest `p` without removing it, or a `None` pair on an empty queue. -/
def peek (h : BinaryHeap) : Option (Node × Q) := minEntry h.heap

end BinaryHeap

/-! ## Radix heap (`src/data_structures/radix_heap.py`) -/

/-- State of `RadixHeap`: `last` is `_last_extracted`, `nodeMap` maps a node
to its live `(priority, bucket_index)` pair, `nB` is the bucket count and
`bounds` the bucket lower bounds `_u`. -/
structure RadixHeap where
  last : Q
  size : Nat
  nodeMap : Dict Node (Q × Nat)
  nB : Nat
  buckets : List (List (Node × Q))
  bounds : List Q
  deriving DecidableEq, Repr

namespace RadixHeap

/-- `_recompute_bounds()`: `u[0] = last`, `u[i] = last + 2^(i-1)`. -/
def recomputeBounds (h : RadixHeap) : RadixHeap :=
  { h with bounds := (List.range h.nB).map fun i =>
      if i = 0 then h.last else Q.add h.last (Q.twoPow (i - 1)) }

/-- `RadixHeap(max_key)`: `B = floor(log2 max_key) + 2` for positive keys
(clamped at zero like Python's `range`), else `2`. -/
def init (maxKey : Q) : RadixHeap :=
  let nB : Nat := if Q.blt 0 maxKey then (Q.floorLog2 maxKey + 2).toNat else 2
  recomputeBounds
    { last := 0, size := 0, nodeMap := [], nB := nB,
      buckets := List.replicate nB [], bounds := [] }

/-- `_bucket_index(prio)`: the first `b < B - 1` with `prio < u[b+1]`,
else `B - 1`. -/
def bucketIdx (h : RadixHeap) (p : Q) : Nat :=
  (((List.range (h.nB - 1)).find? fun b =>
      match h.bounds.get? (b + 1) with
      | some ub => Q.blt p ub
      | none => false)).getD (h.nB - 1)

/-- Append an entry to bucket `b` and register it in the node map. -/
def place (h : RadixHeap) (n : Node) (p : Q) (b : Nat) : Except Err RadixHeap :=
  match h.buckets.get? b with
  | none => .error .indexError
  | some lst =>
    .ok { h with buckets := h.buckets.set b (lst ++ [(n, p)]),
                 nodeMap := h.nodeMap.set n (p, b) }

/-- `insert(node, priority)`. -/
def insert (h : RadixHeap) (n : Node) (p : Q) : Except Err RadixHeap :=
  if Q.blt p h.last then .error .monotonicity
  else if h.nodeMap.mem n then .error .dup
  else do
    let h1 ← h.place n p (h.bucketIdx p)
    .ok { h1 with size := h1.size + 1 }

/-- `decrease_key(node, new_priority)`: lazy, appends a fresh entry and
re-points the node map; the older entry becomes stale. -/
def decreaseKey (h : RadixHeap) (n : Node) (p : Q) : Except Err RadixHeap :=
  match h.nodeMap.lookup n with
  | none => .error .missingNode
  | some old =>
    if Q.ble old.1 p then .ok h
    else if Q.blt p h.last then .error .monotonicity
    else h.place n p (h.bucketIdx p)

/-- The minimum priority among live entries of a bucket's items, scanning
like the Python loop in `_refill_bucket_0`. -/
def liveMin (m : Dict Node (Q × Nat)) : List (Node × Q) → Option Q → Option Q
  | [], acc => acc
  | (n, p) :: rest, acc =>
    match m.lookup n with
    | some c =>
      if Q.beq c.1 p then
        match acc with
        | none => liveMin m rest (some p)
        | some q => liveMin m rest (if Q.blt p q then some p else some q)
      else liveMin m rest acc
    | none => liveMin m rest acc

/-- Redistribute the live entries of a drained bucket under fresh bounds. -/
def redistribute (h : RadixHeap) : List (Node × Q) → Except Err RadixHeap
  | [] => .ok h
  | (n, p) :: rest =>
    match h.nodeMap.lookup n with
    | some c =>
      if Q.beq c.1 p then do
        let h1 ← h.place n p (h.bucketIdx p)
        h1.redistribute rest
      else h.redistribute rest
    | none => h.redistribute rest

/-- Index of the first non-empty bucket in `i, i+1, ..., B-1`, if any;
the fuel `nB - i` makes the scan structural. -/
def firstNonEmptyFrom (buckets : List (List (Node × Q))) (nB : Nat) :
    Nat → Nat → Option Nat
  | _, 0 => none
  | i, fuel + 1 =>
    if i < nB then
      match buckets.get? i with
      | some [] => firstNonEmptyFrom buckets nB (i + 1) fuel
      | some _ => some i
      | none => none
    else none

/-- The `while i < self._B and not self._buckets[i]` scan of
`_refill_bucket_0`, starting at bucket 1. -/
def firstNonEmpty (buckets : List (List (Node × Q))) (nB : Nat) (i : Nat) :
    Option Nat :=
  firstNonEmptyFrom buckets nB i (nB + 1)

/-- `_refill_bucket_0()`: move the next minimal live entries down to bucket 0,
updating `last` and the bounds.  The fuel bounds the stale-bucket retries. -/
def refill (h : RadixHeap) : Nat → Except Err RadixHeap
  | 0 => .error .fuelOut
  | fuel + 1 =>
    match firstNonEmpty h.buckets h.nB 1 with
    | none => if h.size = 0 then .ok h else .error .runtimeError
    | some i =>
      match h.buckets.get? i with
      | none => .error .indexError
      | some items =>
        match liveMin h.nodeMap items none with
        | none => refill { h with buckets := h.buckets.set i [] } fuel
        | some m =>
          let h1 := recomputeBounds { h with last := m }
          redistribute { h1 with buckets := h1.buckets.set i [] } items

/-- The pop loop of `extract_min`: pop from the back of bucket 0, discarding
stale entries, until a live entry is found or the bucket is drained. -/
def popLive (h : RadixHeap) : Nat → Except Err (Option (Node × Q) × RadixHeap)
  | 0 => .error .fuelOut
  | fuel + 1 =>
    match h.buckets.get? 0 with
    | none => .error .indexError
    | some b0 =>
      match b0.getLast? with
      | none => .ok (none, h)
      | some np =>
        let h1 := { h with buckets := h.buckets.set 0 b0.dropLast }
        match h1.nodeMap.lookup np.1 with
        | some c =>
          if Q.beq c.1 np.2 then
            match h1.nodeMap.del np.1 with
            | none => .error .keyError
            | some map1 =>
              .ok (some np, { h1 with nodeMap := map1, size := h1.size - 1, last := np.2 })
          else h1.popLive fuel
        | none => h1.popLive fuel

/-- `extract_min()`. -/
def extractMin (h : RadixHeap) : Except Err (Option (Node × Q) × RadixHeap) :=
  if h.size = 0 then .ok (none, h)
  else do
    let h1 ←
      match h.buckets.get? 0 with
      | none => .error .indexError
      | some b0 => if b0.isEmpty then h.refill (h.nB + 2) else .ok h
    let (r1, h2) ← h1.popLive ((h1.buckets.headD []).length + 1)
    match r1 with
    | some np => .ok (some np, h2)
    | none =>
      if h2.size = 0 then .ok (none, h2)
      else do
        let h3 ← h2.refill (h2.nB + 2)
        let (r2, h4) ← h3.popLive ((h3.buckets.headD []).length + 1)
        match r2 with
        | some np => .ok (some np, h4)
        | none => .error .runtimeError

/-- `node in heap` (via `_node_map`). -/
def contains (h : RadixHeap) (n : Node) : Bool := h.nodeMap.mem n

/-- `is_empty()`. -/
def isEmpty (h : RadixHeap) : Bool := h.size = 0

/-- Least live priority entry of the node map (first occurrence wins). -/
def minLiveEntry : Dict Node (Q × Nat) → Option (Node × Q)
  | [] => none
  | (n, c) :: rest =>
    match minLiveEntry rest with
    | none => some (n, c.1)
    | some y => if Q.blt y.2 c.1 then some y else some (n, c.1)

/-- Modelled from the spec: `peek` (not among the files at hand) returns the
live `(n, p)` with the smallest `p` without removing it. -/
def peek (h : RadixHeap) : Option (Node × Q) := minLiveEntry h.nodeMap

end RadixHeap

/-! ## Fibonacci heap (`src/data_structures/fibonacci_heap.py`)

Python's `FibNode` objects are held in an arena; object references become
arena indices, and reference equality becomes index equality.  Extracted
nodes simply become unreferenced, as in Python. -/

/-- `FibNode`: `left`/`right` thread circular doubly-linked lists. -/
structure FibNode where
  id : Node
  key : Q
  parent : Option Nat
  child : Option Nat
  left : Nat
  right : Nat
  degree : Nat
  mark : Bool
  deriving DecidableEq, Repr

/-- State of `FibonacciHeap`: the arena, the cached minimum (`self.min`),
`count`, and the node → arena-index handle map (`self.nodes`). -/
structure FibHeap where
  arena : Array FibNode
  minIdx : Option Nat
  count : Nat
  nodes : Dict Node Nat
  deriving DecidableEq, Repr

namespace FibHeap

/-- The empty heap (`FibonacciHeap()`). -/
def init : FibHeap := ⟨#[], none, 0, []⟩

/-- Read an arena slot (attribute access on a node reference). -/
def rd (h : FibHeap) (i : Nat) : Except Err FibNode :=
  match h.arena.get? i with
  | some x => .ok x
  | none => .error .indexError

/-- Update an arena slot (attribute assignment on a node reference). -/
def wr (h : FibHeap) (i : Nat) (f : FibNode → FibNode) : FibHeap :=
  { h with arena := h.arena.modify i f }

/-- `_merge_with_root_list(node)`. -/
def mergeRoot (h : FibHeap) (i : Nat) : Except Err FibHeap :=
  match h.minIdx with
  | none =>
    let h1 := h.wr i fun x => { x with left := i, right := i }
    .ok { h1 with minIdx := some i }
  | some m => do
    let mrec ← h.rd m
    let mr := mrec.right
    let h1 := h.wr i fun x => { x with left := m, right := mr }
    let h2 := h1.wr mr fun x => { x with left := i }
    .ok (h2.wr m fun x => { x with right := i })

/-- `_remove_from_list(node)`. -/
def removeFromList (h : FibHeap) (i : Nat) : Except Err FibHeap := do
  let x ← h.rd i
  let h1 := h.wr x.left fun y => { y with right := x.right }
  .ok (h1.wr x.right fun y => { y with left := x.left })

/-- Walk a circular list from `cur` until it closes at `head`. -/
def cycleFrom (h : FibHeap) (head cur : Nat) (acc : List Nat) :
    Nat → Except Err (List Nat)
  | 0 => .error .fuelOut
  | fuel + 1 => do
    let x ← h.rd cur
    if x.right = head then .ok (acc ++ [cur])
    else h.cycleFrom head x.right (acc ++ [cur]) fuel

/-- `list(self._iterate(head))`: the members of a circular list, in order. -/
def cycleList (h : FibHeap) (head : Nat) : Except Err (List Nat) :=
  h.cycleFrom head head [] (h.arena.size + 1)

/-- `_link(y, x)`: make `y` a child of `x`. -/
def link (h : FibHeap) (y x : Nat) : Except Err FibHeap :=
  match h.removeFromList y with
  | .error e => .error e
  | .ok h1 =>
    let h2 := h1.wr y fun n => { n with parent := some x }
    match h2.rd x with
    | .error e => .error e
    | .ok xrec =>
      let r6 : Except Err FibHeap :=
        match xrec.child with
        | none =>
          let h3 := h2.wr x fun n => { n with child := some y }
          .ok (h3.wr y fun n => { n with left := y, right := y })
        | some c =>
          match h2.rd c with
          | .error e => .error e
          | .ok crec =>
            let cr := crec.right
            let h3 := h2.wr y fun n => { n with left := c, right := cr }
            let h4 := h3.wr cr fun n => { n with left := y }
            .ok (h4.wr c fun n => { n with right := y })
      match r6 with
      | .error e => .error e
      | .ok h6 =>
        let h7 := h6.wr x fun n => { n with degree := n.degree + 1 }
        .ok (h7.wr y fun n => { n with mark := false })

/-- The inner `while A[d] is not None` loop of `_consolidate`. -/
def consolidateWhile (h : FibHeap) (A : List (Option Nat)) (x d : Nat) :
    Nat → Except Err (FibHeap × List (Option Nat) × Nat × Nat)
  | 0 => .error .fuelOut
  | fuel + 1 =>
    match A.get? d with
    | none => .error .indexError
    | some none => .ok (h, A, x, d)
    | some (some y) => do
      let xr ← h.rd x
      let yr ← h.rd y
      let xy := if Q.blt yr.key xr.key then (y, x) else (x, y)
      let h1 ← h.link xy.2 xy.1
      h1.consolidateWhile (A.set d none) xy.1 (d + 1) fuel

/-- The `for w in list(self._iterate(self.min))` loop of `_consolidate`. -/
def consolidateRoots (h : FibHeap) (A : List (Option Nat)) :
    List Nat → Except Err (FibHeap × List (Option Nat))
  | [] => .ok (h, A)
  | w :: rest => do
    let wrec ← h.rd w
    let r ← h.consolidateWhile A w wrec.degree (A.length + 1)
    match r.2.1.get? r.2.2.2 with
    | none => .error .indexError
    | some _ => r.1.consolidateRoots (r.2.1.set r.2.2.2 (some r.2.2.1)) rest

/-- The final minimum-rebuilding loop of `_consolidate`. -/
def consolidateFinish (h : FibHeap) : List (Option Nat) → Except Err FibHeap
  | [] => .ok h
  | none :: rest => h.consolidateFinish rest
  | some x :: rest =>
    match h.minIdx with
    | none =>
      let h1 := { h with minIdx := some x }
      (h1.wr x fun n => { n with left := x, right := x }).consolidateFinish rest
    | some m => do
      let h1 ← h.mergeRoot x
      let xr ← h1.rd x
      let mr ← h1.rd m
      let h2 := if Q.blt xr.key mr.key then { h1 with minIdx := some x } else h1
      h2.consolidateFinish rest

/-- `_consolidate()`; the degree bound is `int(math.log(count, 2)) + 2`
(written `Nat.log2 count + 2`, the same value for every positive count). -/
def consolidate (h : FibHeap) : Except Err FibHeap :=
  match h.minIdx with
  | none => .error .runtimeError
  | some m => do
    let roots ← h.cycleList m
    let r ← h.consolidateRoots (List.replicate (natLog2 h.count + 2) none) roots
    { r.1 with minIdx := none }.consolidateFinish r.2

/-- `insert(node, priority)`. -/
def insert (h : FibHeap) (n : Node) (p : Q) : Except Err FibHeap :=
  if h.nodes.mem n then .error .dup
  else do
    let idx := h.arena.size
    let fresh : FibNode :=
      { id := n, key := p, parent := none, child := none,
        left := idx, right := idx, degree := 0, mark := false }
    let h1 : FibHeap := { h with arena := h.arena.push fresh }
    let h2 ← h1.mergeRoot idx
    let h3 ←
      match h2.minIdx with
      | none => pure { h2 with minIdx := some idx }
      | some m => do
        let mr ← h2.rd m
        if Q.blt p mr.key then pure { h2 with minIdx := some idx } else pure h2
    .ok { h3 with nodes := h3.nodes.set n idx, count := h3.count + 1 }

/-- `extract_min()`. -/
def extractMin (h : FibHeap) : Except Err (Option (Node × Q) × FibHeap) :=
  match h.minIdx with
  | none => .ok (none, h)
  | some z => do
    let zr ← h.rd z
    let h1 ←
      match zr.child with
      | none => pure h
      | some c => do
        let kids ← h.cycleList c
        kids.foldlM (fun hh x => do
          let hh1 ← hh.mergeRoot x
          pure (hh1.wr x fun n => { n with parent := none })) h
    let h2 ← h1.removeFromList z
    match h2.nodes.del zr.id with
    | none => .error .keyError
    | some nodes1 =>
      let h3 := { h2 with nodes := nodes1, count := h2.count - 1 }
      let zr3 ← h3.rd z
      if zr3.right = z then .ok (some (zr.id, zr.key), { h3 with minIdx := none })
      else do
        let h4 ← { h3 with minIdx := some zr3.right }.consolidate
        .ok (some (zr.id, zr.key), h4)

/-- `_cut(x, y)`. -/
def cut (h : FibHeap) (x y : Nat) : Except Err FibHeap := do
  let yr ← h.rd y
  let xr ← h.rd x
  let h1 :=
    if yr.child = some x then
      if xr.right ≠ x then h.wr y fun n => { n with child := some xr.right }
      else h.wr y fun n => { n with child := none }
    else h
  let h2 ← h1.removeFromList x
  let h3 := h2.wr y fun n => { n with degree := n.degree - 1 }
  let h4 ← h3.mergeRoot x
  let h5 := h4.wr x fun n => { n with parent := none }
  .ok (h5.wr x fun n => { n with mark := false })

/-- `_cascading_cut(y)`. -/
def cascadingCut (h : FibHeap) (y : Nat) : Nat → Except Err FibHeap
  | 0 => .error .fuelOut
  | fuel + 1 => do
    let yr ← h.rd y
    match yr.parent with
    | none => .ok h
    | some z =>
      if yr.mark = false then .ok (h.wr y fun n => { n with mark := true })
      else do
        let h1 ← h.cut y z
        h1.cascadingCut z fuel

/-- `decrease_key(node, new_key)`. -/
def decreaseKey (h : FibHeap) (n : Node) (newKey : Q) : Except Err FibHeap :=
  match h.nodes.lookup n with
  | none => .error .missingNode
  | some x => do
    let xr ← h.rd x
    if Q.ble xr.key newKey then .ok h
    else
      let h1 := h.wr x fun m => { m with key := newKey }
      let h2 ←
        match xr.parent with
        | none => pure h1
        | some y => do
          let yr ← h1.rd y
          if Q.blt newKey yr.key then do
            let hh ← h1.cut x y
            hh.cascadingCut y (hh.arena.size + 1)
          else pure h1
      match h2.minIdx with
      | none => .error .runtimeError
      | some m => do
        let mr ← h2.rd m
        let xr2 ← h2.rd x
        if Q.blt xr2.key mr.key then .ok { h2 with minIdx := some x } else .ok h2

/-- `is_empty()` (`self.min is None`). -/
def isEmpty (h : FibHeap) : Bool := h.minIdx.isNone

/-- `len(heap)` (`self.count`). -/
def size (h : FibHeap) : Nat := h.count

/-- `node in heap` (via `self.nodes`). -/
def contains (h : FibHeap) (n : Node) : Bool := h.nodes.mem n

/-- Least-key handle-map entry (first occurrence wins on ties). -/
def minNodeEntry (h : FibHeap) : Dict Node Nat → Option (Node × Q)
  | [] => none
  | (n, i) :: rest =>
    match h.arena.get? i with
    | none => h.minNodeEntry rest
    | some x =>
      match h.minNodeEntry rest with
      | none => some (n, x.key)
      | some y => if Q.blt y.2 x.key then some y else some (n, x.key)

/-- Modelled from the spec: `peek` (not among the files at hand) returns the
live `(n, p)` with the smallest `p` without removing it. -/
def peek (h : FibHeap) : Option (Node × Q) := h.minNodeEntry h.nodes

end FibHeap

/-! ## Uniform queue dispatch

Python holds a heap object of one of the three classes and dispatches
dynamically; `Heap` is the corresponding sum.  The membership test used by
`dijkstra` (the `hasattr` chain over `nodes`, `_pos`, `_node_map`) and the
`in` operator both resolve to the per-class handle-map membership. -/

inductive Heap where
  | binary (h : BinaryHeap)
  | fib (h : FibHeap)
  | radix (h : RadixHeap)
  deriving Repr

namespace Heap

/-- `insert(node, priority)`. -/
def insert : Heap → Node → Q → Except Err Heap
  | binary h, n, p => (h.insert n p).map .binary
  | fib h, n, p => (h.insert n p).map .fib
  | radix h, n, p => (h.insert n p).map .radix

/-- `extract_min()`. -/
def extractMin : Heap → Except Err (Option (Node × Q) × Heap)
  | binary h => (h.extractMin).map fun r => (r.1, .binary r.2)
  | fib h => (h.extractMin).map fun r => (r.1, .fib r.2)
  | radix h => (h.extractMin).map fun r => (r.1, .radix r.2)

/-- `decrease_key(node, new_priority)`. -/
def decreaseKey : Heap → Node → Q → Except Err Heap
  | binary h, n, p => (h.decreaseKey n p).map .binary
  | fib h, n, p => (h.decreaseKey n p).map .fib
  | radix h, n, p => (h.decreaseKey n p).map .radix

/-- Membership (`in`, and `dijkstra`'s `hasattr` chain). -/
def contains : Heap → Node → Bool
  | binary h, n => h.contains n
  | fib h, n => h.contains n
  | radix h, n => h.contains n

/-- `len(heap)`. -/
def size : Heap → Nat
  | binary h => h.size
  | fib h => h.size
  | radix h => h.size

/-- `is_empty()`. -/
def isEmpty : Heap → Bool
  | binary h => h.isEmpty
  | fib h => h.isEmpty
  | radix h => h.isEmpty

/-- `peek()` (modelled from the spec, see the per-heap definitions). -/
def peek : Heap → Option (Node × Q)
  | binary h => h.peek
  | fib h => h.peek
  | radix h => h.peek

end Heap

/-- The factory shared by the algorithms: tag → fresh queue; the radix
variant receives the caller-computed `max_key`. -/
def mkHeap : String → Q → Except Err Heap
  | "binary", _ => .ok (.binary BinaryHeap.init)
  | "fibonacci", _ => .ok (.fib FibHeap.init)
  | "radix", mk => .ok (.radix (RadixHeap.init mk))
  | _, _ => .error .badVariant

/-! ## Dijkstra (`src/algorithms/dijkstra.py`) -/

/-- The radix `max_key` computed by `dijkstra`: the sum of every edge weight
in the graph (`max_edge`), replaced by `1` when zero. -/
def dijkstraMaxKey (g : Graph) : Q :=
  let s := g.foldl (fun acc uv => uv.2.foldl (fun a vw => Q.add a vw.2) acc) 0
  if Q.beq s 0 then 1 else s

/-- The neighbor relaxation loop of `dijkstra` (its `for v, w in ...` body);
`dist[u]` and `dist[v]` are direct reads that may raise `KeyError`. -/
def dijkstraRelax (u : Node) :
    List (Node × Q) → Dict Node QI → Heap → Except Err (Dict Node QI × Heap)
  | [], dist, heap => .ok (dist, heap)
  | (v, w) :: rest, dist, heap => do
    let du ← dist.getE u
    let alt := qiAdd du w
    let dv ← dist.getE v
    if qiLt alt dv then
      match alt with
      | some q => do
        let dist1 := dist.set v alt
        let heap1 ← if heap.contains v then heap.decreaseKey v q else heap.insert v q
        dijkstraRelax u rest dist1 heap1
      | none => .error .runtimeError
    else dijkstraRelax u rest dist heap

/-- The main `while not heap.is_empty()` loop of `dijkstra`. -/
def dijkstraLoop (g : Graph) : Dict Node QI → Heap → Nat → Except Err (Dict Node QI)
  | _, _, 0 => .error .fuelOut
  | dist, heap, fuel + 1 =>
    if heap.isEmpty then .ok dist
    else do
      let r ← heap.extractMin
      match r.1 with
      | none => dijkstraLoop g dist r.2 fuel
      | some (u, d) => do
        let du ← dist.getE u
        if qiLt du (some d) then dijkstraLoop g dist r.2 fuel
        else do
          let s ← dijkstraRelax u (g.lookupD u []) dist r.2
          dijkstraLoop g s.1 s.2 fuel

/-- `dijkstra(graph, source, heap_type)`. -/
def dijkstra (g : Graph) (source : Node) (heapType : String) (fuel : Nat) :
    Except Err (Dict Node QI) := do
  let heap0 ← mkHeap heapType (dijkstraMaxKey g)
  let dist0 : Dict Node QI := g.map fun uv => (uv.1, (none : QI))
  let dist1 := dist0.set source (some 0)
  let heap1 ← heap0.insert source 0
  dijkstraLoop g dist1 heap1 fuel

/-! ## Bidirectional Dijkstra (`src/algorithms/bidirectional_skewed.py`) -/

namespace BidirectionalDijkstra

/-- `_build_reverse_graph(graph)`. -/
def buildReverseGraph (g : Graph) : Graph :=
  let rev0 : Graph := g.map fun uv => (uv.1, [])
  g.foldl (fun rev uv =>
    uv.2.foldl (fun rev2 vw =>
      rev2.set vw.1 (rev2.lookupD vw.1 [] ++ [(uv.1, vw.2)])) rev) rev0

/-- Constructor state of `BidirectionalDijkstra`. -/
structure St where
  graph : Graph
  reverseGraph : Graph
  heapType : String
  skew : Q
  maxKey : Q
  deriving Repr

/-- `BidirectionalDijkstra(graph, heap_type, skew)`: precomputes the reverse
graph and, for the radix variant, `max_key = int(max_w * max(len - 1, 1))`. -/
def mkSt (g : Graph) (heapType : String) (skew : Q) : St :=
  { graph := g, reverseGraph := buildReverseGraph g,
    heapType := heapType, skew := skew,
    maxKey :=
      if heapType = "radix" then
        let maxW := g.foldl (fun acc uv =>
          uv.2.foldl (fun a vw => if Q.blt a vw.2 then vw.2 else a) acc) 0
        let maxW := if Q.beq maxW 0 then 1 else maxW
        Q.ofInt (Q.toIntTrunc (Q.mul maxW (Q.ofNat (max (g.length - 1) 1))))
      else 0 }

/-- One relaxation sweep of `find_shortest_path` over the popped node's
neighbors, also updating the meeting length `mu`. -/
def expandRelax (d : Q) :
    List (Node × Q) → Dict Node QI → Heap → Dict Node QI → QI →
    Except Err (Dict Node QI × Heap × QI)
  | [], dist, heap, _, mu => .ok (dist, heap, mu)
  | (v, w) :: rest, dist, heap, other, mu => do
    let alt := Q.add d w
    if qiLt (some alt) (dist.lookupD v none) then do
      let dist1 := dist.set v (some alt)
      let heap1 ← if heap.contains v then heap.decreaseKey v alt else heap.insert v alt
      let mu1 :=
        match other.lookup v with
        | some ov =>
          let nl := qiAdd ov alt
          if qiLt nl mu then nl else mu
        | none => mu
      expandRelax d rest dist1 heap1 other mu1
    else expandRelax d rest dist heap other mu

/-- One direction expansion: pop, stale-check, relax. -/
def expandStep (g : Graph) (dist : Dict Node QI) (heap : Heap)
    (other : Dict Node QI) (mu : QI) : Except Err (Dict Node QI × Heap × QI) := do
  let r ← heap.extractMin
  match r.1 with
  | none => .ok (dist, r.2, mu)
  | some (u, d) => do
    let du ← dist.getE u
    if qiLt du (some d) then .ok (dist, r.2, mu)
    else expandRelax d (g.lookupD u []) dist r.2 other mu

/-- The main loop of `find_shortest_path`. -/
def biLoop (st : St) : Dict Node QI → Dict Node QI → Heap → Heap → QI → Nat →
    Except Err QI
  | _, _, _, _, _, 0 => .error .fuelOut
  | fDist, bDist, fHeap, bHeap, mu, fuel + 1 =>
    if fHeap.isEmpty ∨ bHeap.isEmpty then .ok mu
    else
      match fHeap.peek, bHeap.peek with
      | some fp, some bp =>
        if qiLe mu (some (Q.add fp.2 bp.2)) then .ok mu
        else
          if Q.ble (Q.mul (Q.ofNat fHeap.size) (Q.sub 1 st.skew)) (Q.mul (Q.ofNat bHeap.size) st.skew) then do
            let s ← expandStep st.graph fDist fHeap bDist mu
            biLoop st s.1 bDist s.2.1 bHeap s.2.2 fuel
          else do
            let s ← expandStep st.reverseGraph bDist bHeap fDist mu
            biLoop st fDist s.1 fHeap s.2.1 s.2.2 fuel
      | _, _ => .ok mu

/-- `find_shortest_path(source, target)`. -/
def findShortestPath (st : St) (source target : Node) (fuel : Nat) :
    Except Err QI :=
  if source = target then .ok (some 0)
  else if ¬ st.graph.mem source ∨ ¬ st.graph.mem target then .ok none
  else do
    let fHeap0 ← mkHeap st.heapType st.maxKey
    let bHeap0 ← mkHeap st.heapType st.maxKey
    let fHeap ← fHeap0.insert source 0
    let bHeap ← bHeap0.insert target 0
    biLoop st [(source, some 0)] [(target, some 0)] fHeap bHeap none fuel

end BidirectionalDijkstra

/-! ## Contraction hierarchies

`contraction_hierarchy.py` (class fixed to the binary heap, records shortcut
middles, no priority offset) and `contraction_hierarchy_all.py` (variant
heaps, `PRIORITY_OFFSET = 1_000_000`, no middle recording) share one state
type `CHSt`; the two classes are obtained by instantiating `heapType`,
`offset` and `trackMiddle`. -/

namespace CH

/-- The constructor loop ensuring every edge head is a key: missing heads
are appended with empty adjacency.  (Python iterates a `set` here, whose
order is unspecified; we take first-encounter order.) -/
def augmentKeys (g : Graph) : Graph :=
  let missing := g.foldl (fun acc uv =>
    uv.2.foldl (fun a vw =>
      if g.mem vw.1 ∨ a.contains vw.1 then a else a ++ [vw.1]) acc) []
  g ++ missing.map fun v => (v, [])

/-- `_get_weight(u, v)`: minimum weight over parallel `u → v` edges, `+∞`
when there is none (both classes compute this value). -/
def getWeight (g : Graph) (u v : Node) : QI :=
  (g.lookupD u []).foldl (fun acc nw =>
    if nw.1 = v ∧ qiLt (some nw.2) acc then some nw.2 else acc) none

/-- State of a `ContractionHierarchy` object. -/
structure CHSt where
  heapType : String
  maxKey : Q
  trackMiddle : Bool
  graph : Graph
  reverseGraph : Graph
  nodes : List Node
  nodeOrder : List Node
  rank : Dict Node Nat
  isContracted : Dict Node Bool
  shortcuts : Dict (Node × Node) Node
  deriving Repr

/-- `_add_edge(u, v, w)`: append to the augmented graph and its reverse,
recording the shortcut middle when the class tracks it. -/
def CHSt.addEdge (st : CHSt) (u v : Node) (w : Q) (middle : Node) : CHSt :=
  let g1 := st.graph.set u (st.graph.lookupD u [] ++ [(v, w)])
  let r1 := st.reverseGraph.set v (st.reverseGraph.lookupD v [] ++ [(u, w)])
  { st with
    graph := g1, reverseGraph := r1,
    shortcuts := if st.trackMiddle then st.shortcuts.set (u, v) middle else st.shortcuts }

/-- The live-neighbor comprehension `[v for v, w in ... if not contracted]`;
the `is_contracted[v]` read may raise `KeyError`. -/
def liveNeighbors (isContracted : Dict Node Bool) :
    List (Node × Q) → Except Err (List Node)
  | [] => .ok []
  | (v, _) :: rest => do
    let c ← isContracted.getE v
    let tail ← liveNeighbors isContracted rest
    .ok (if c then tail else v :: tail)

/-- The relaxation sweep of `_local_dijkstra` (skip the excluded node, then
skip contracted nodes, then relax). -/
def localRelax (isContracted : Dict Node Bool) (exclude : Node) (d : Q) :
    List (Node × Q) → Dict Node QI → Heap → Except Err (Dict Node QI × Heap)
  | [], dist, heap => .ok (dist, heap)
  | (v, w) :: rest, dist, heap =>
    if v = exclude then localRelax isContracted exclude d rest dist heap
    else do
      let c ← isContracted.getE v
      if c then localRelax isContracted exclude d rest dist heap
      else
        let nd := Q.add d w
        if qiLt (some nd) (dist.lookupD v none) then do
          let dist1 := dist.set v (some nd)
          let heap1 ← if heap.contains v then heap.decreaseKey v nd else heap.insert v nd
          localRelax isContracted exclude d rest dist1 heap1
        else localRelax isContracted exclude d rest dist heap

/-- The main loop of `_local_dijkstra`: bounded witness search returning
`+∞` once the popped key exceeds `limit`, the popped distance when the
target is popped, and `dist.get(target, inf)` on exhaustion. -/
def localLoop (g : Graph) (isContracted : Dict Node Bool) (target : Node)
    (limit : QI) (exclude : Node) :
    Dict Node QI → Heap → Nat → Except Err QI
  | _, _, 0 => .error .fuelOut
  | dist, heap, fuel + 1 =>
    if heap.isEmpty then .ok (dist.lookupD target none)
    else do
      let r ← heap.extractMin
      match r.1 with
      | none => .error .runtimeError
      | some (u, d) =>
        if qiLt limit (some d) then .ok none
        else if u = target then .ok (some d)
        else do
          let du ← dist.getE u
          if qiLt du (some d) then
            localLoop g isContracted target limit exclude dist r.2 fuel
          else do
            let s ← localRelax isContracted exclude d (g.lookupD u []) dist r.2
            localLoop g isContracted target limit exclude s.1 s.2 fuel

/-- `_local_dijkstra(source, target, limit, exclude)`. -/
def CHSt.localDijkstra (st : CHSt) (source target : Node) (limit : QI)
    (exclude : Node) (fuel : Nat) : Except Err QI := do
  let heap0 ← mkHeap st.heapType st.maxKey
  let heap1 ← heap0.insert source 0
  localLoop st.graph st.isContracted target limit exclude [(source, some 0)] heap1 fuel

/-- The shortcut-counting double loop of `_compute_importance`. -/
def CHSt.countShortcuts (st : CHSt) (u : Node) (incoming outgoing : List Node)
    (fuel : Nat) : Except Err Nat :=
  incoming.foldlM (fun acc iv =>
    outgoing.foldlM (fun acc2 ov =>
      if iv = ov then pure acc2
      else do
        let td := qiAdd2 (getWeight st.graph iv u) (getWeight st.graph u ov)
        let wit ← st.localDijkstra iv ov td u fuel
        pure (if qiLt td wit then acc2 + 1 else acc2)) acc) 0

/-- `_compute_importance(u)`: `shortcuts - (|incoming| + |outgoing|)`, or
`+∞` for a contracted node.  (The plain class also computes an unused
`max_w` bound and a `contracted_neighbors = 0` term; both have no effect
on the returned value and are omitted.) -/
def CHSt.computeImportance (st : CHSt) (u : Node) (fuel : Nat) : Except Err QI := do
  let c ← st.isContracted.getE u
  if c then .ok none
  else do
    let incoming ← liveNeighbors st.isContracted (st.reverseGraph.lookupD u [])
    let outgoing ← liveNeighbors st.isContracted (st.graph.lookupD u [])
    let sc ← st.countShortcuts u incoming outgoing fuel
    .ok (some (Q.sub (Q.ofNat sc) (Q.ofNat (incoming.length + outgoing.length))))

/-- `_contract_node(u)`: insert a shortcut for every live in/out pair with
no witness path at most as short. -/
def CHSt.contractNode (st : CHSt) (u : Node) (fuel : Nat) : Except Err CHSt := do
  let incoming ← liveNeighbors st.isContracted (st.reverseGraph.lookupD u [])
  let outgoing ← liveNeighbors st.isContracted (st.graph.lookupD u [])
  incoming.foldlM (fun st1 iv =>
    outgoing.foldlM (fun st2 ov =>
      if iv = ov then pure st2
      else do
        let td := qiAdd2 (getWeight st2.graph iv u) (getWeight st2.graph u ov)
        let wit ← st2.localDijkstra iv ov td u fuel
        if qiLt td wit then
          match td with
          | some w => pure (st2.addEdge iv ov w u)
          | none => throw Err.runtimeError
        else pure st2) st1) st

/-- The contraction loop of `preprocess`: pop the candidate, recompute its
importance, defer it when the queue's next key is better, else rank and
contract it.  `offset` is `0` for the plain class and `PRIORITY_OFFSET`
for the `_all` class. -/
def preprocessLoop (offset : Q) (wFuel : Nat) :
    CHSt → Heap → Nat → Nat → Except Err CHSt
  | _, _, _, 0 => .error .fuelOut
  | st, pq, counter, fuel + 1 =>
    if pq.isEmpty then .ok st
    else do
      let r ← pq.extractMin
      match r.1 with
      | none => .error .runtimeError
      | some (u, _) => do
        let cur ← st.computeImportance u wFuel
        let reeval ←
          if r.2.isEmpty then pure none
          else
            match r.2.peek with
            | none => pure none
            | some np =>
              if qiLt (some np.2) cur then
                match cur with
                | some cq => do
                  let pq2 ← r.2.insert u (Q.add cq offset)
                  pure (some pq2)
                | none => throw Err.runtimeError
              else pure none
        match reeval with
        | some pq2 => preprocessLoop offset wFuel st pq2 counter fuel
        | none => do
          let st1 := { st with
            rank := st.rank.set u counter, nodeOrder := st.nodeOrder ++ [u] }
          let st2 ← st1.contractNode u wFuel
          let st3 := { st2 with isContracted := st2.isContracted.set u true }
          preprocessLoop offset wFuel st3 r.2 (counter + 1) fuel

/-- `preprocess()`: seed the importance queue with every node, then run the
contraction loop. -/
def CHSt.preprocess (st : CHSt) (offset : Q) (wFuel loopFuel : Nat) :
    Except Err CHSt := do
  let pq0 ← mkHeap st.heapType st.maxKey
  let pq1 ← st.nodes.foldlM (fun pq n => do
    let imp ← st.computeImportance n wFuel
    match imp with
    | some q => pq.insert n (Q.add q offset)
    | none => throw Err.runtimeError) pq0
  preprocessLoop offset wFuel st pq1 0 loopFuel

/-- The relaxation sweep of a `query` step: follow only edges that climb
strictly in rank (`rank[u] < rank[v]`, both direct dictionary reads). -/
def queryRelax (st : CHSt) (u : Node) (d : Q) :
    List (Node × Q) → Dict Node QI → Heap → Dict Node QI → QI →
    Except Err (Dict Node QI × Heap × QI)
  | [], dist, heap, _, mu => .ok (dist, heap, mu)
  | (v, w) :: rest, dist, heap, other, mu => do
    let ru ← st.rank.getE u
    let rv ← st.rank.getE v
    if ru < rv then
      let alt := Q.add d w
      if qiLt (some alt) (dist.lookupD v none) then do
        let dist1 := dist.set v (some alt)
        let heap1 ← if heap.contains v then heap.decreaseKey v alt else heap.insert v alt
        let mu1 :=
          match other.lookup v with
          | some ov =>
            let nl := qiAdd ov alt
            if qiLt nl mu then nl else mu
          | none => mu
        queryRelax st u d rest dist1 heap1 other mu1
      else queryRelax st u d rest dist heap other mu
    else queryRelax st u d rest dist heap other mu

/-- One direction step of `query`: pop, prune by `d <= mu` and the stale
check `d <= dist[u]`, then relax upward edges. -/
def queryStep (st : CHSt) (g : Graph) (dist : Dict Node QI) (heap : Heap)
    (other : Dict Node QI) (mu : QI) : Except Err (Dict Node QI × Heap × QI) := do
  let r ← heap.extractMin
  match r.1 with
  | none => .ok (dist, r.2, mu)
  | some (u, d) =>
    if ¬ qiLe (some d) mu then .ok (dist, r.2, mu)
    else do
      let du ← dist.getE u
      if qiLe (some d) du then queryRelax st u d (g.lookupD u []) dist r.2 other mu
      else .ok (dist, r.2, mu)

/-- The `while not f.is_empty() or not b.is_empty()` loop of `query`:
one forward step then one backward step per iteration. -/
def queryLoop (st : CHSt) :
    Dict Node QI → Dict Node QI → Heap → Heap → QI → Nat → Except Err QI
  | _, _, _, _, _, 0 => .error .fuelOut
  | fD, bD, fH, bH, mu, fuel + 1 =>
    if fH.isEmpty ∧ bH.isEmpty then .ok mu
    else do
      let f ← if ¬ fH.isEmpty then queryStep st st.graph fD fH bD mu
              else pure (fD, fH, mu)
      let b ← if ¬ bH.isEmpty then queryStep st st.reverseGraph bD bH f.1 f.2.2
              else pure (bD, bH, f.2.2)
      queryLoop st f.1 b.1 f.2.1 b.2.1 b.2.2 fuel

/-- `query(source, target)`. -/
def query (st : CHSt) (source target : Node) (fuel : Nat) : Except Err QI :=
  if ¬ st.graph.mem source ∨ ¬ st.graph.mem target then .ok none
  else if source = target then .ok (some 0)
  else do
    let fHeap0 ← mkHeap st.heapType st.maxKey
    let bHeap0 ← mkHeap st.heapType st.maxKey
    let fHeap ← fHeap0.insert source 0
    let bHeap ← bHeap0.insert target 0
    queryLoop st [(source, some 0)] [(target, some 0)] fHeap bHeap none fuel

/-- `ContractionHierarchy(graph)` of `contraction_hierarchy.py`: binary
heap, no offset, shortcut middles recorded. -/
def mkPlain (g : Graph) : CHSt :=
  let g1 := augmentKeys g
  { heapType := "binary", maxKey := 0, trackMiddle := true,
    graph := g1, reverseGraph := BidirectionalDijkstra.buildReverseGraph g1,
    nodes := g1.keys, nodeOrder := [], rank := [],
    isContracted := g1.keys.map fun n => (n, false), shortcuts := [] }

/-- `ContractionHierarchy(graph, heap_type)` of
`contraction_hierarchy_all.py`: `max_key` is computed over the original
(pre-augmentation) graph. -/
def mkAll (g : Graph) (heapType : String) : CHSt :=
  let g1 := augmentKeys g
  { heapType := heapType,
    maxKey :=
      if heapType = "radix" then
        let maxW := g.foldl (fun acc uv =>
          uv.2.foldl (fun a vw => if Q.blt a vw.2 then vw.2 else a) acc) 0
        let maxW := if Q.beq maxW 0 then 1 else maxW
        Q.ofInt (Q.toIntTrunc (Q.mul maxW (Q.ofNat (max (g.length - 1) 1))))
      else 0,
    trackMiddle := false,
    graph := g1, reverseGraph := BidirectionalDijkstra.buildReverseGraph g1,
    nodes := g1.keys, nodeOrder := [], rank := [],
    isContracted := g1.keys.map fun n => (n, false), shortcuts := [] }

/-- `PRIORITY_OFFSET` of `contraction_hierarchy_all.py`. -/
def priorityOffset : Q := 1000000

/-- `preprocess()` of the plain class. -/
def preprocessPlain (g : Graph) (wFuel loopFuel : Nat) : Except Err CHSt :=
  (mkPlain g).preprocess 0 wFuel loopFuel

/-- `preprocess()` of the `_all` class. -/
def preprocessAll (g : Graph) (heapType : String) (wFuel loopFuel : Nat) :
    Except Err CHSt :=
  (mkAll g heapType).preprocess priorityOffset wFuel loopFuel

end CH

/-! ## Scenario inputs -/

/-- The chain `A→B(1), B→C(1), C→D(1)` with `A, B, C, D` as `0, 1, 2, 3`. -/
def chainGraph : Graph := [(0, [(1, 1)]), (1, [(2, 1)]), (2, [(3, 1)]), (3, [])]

/-- The distance map `{A: 0, B: 1, C: 2, D: 3}`. -/
def chainDist : Dict Node QI := [(0, some 0), (1, some 1), (2, some 2), (3, some 3)]

/-! ## Theorems for the claims -/

/-- C9: on the chain `A→B(1), B→C(1), C→D(1)` with source `A`, `dijkstra`
returns exactly the map `{A: 0, B: 1, C: 2, D: 3}`, and the binary,
fibonacci and radix variants all return this same map. -/
theorem dijkstra_chain_scenario :
    dijkstra chainGraph 0 "binary" 100 = .ok chainDist ∧
    dijkstra chainGraph 0 "fibonacci" 100 = .ok chainDist ∧
    dijkstra chainGraph 0 "radix" 100 = .ok chainDist :=
  ⟨by rfl, by rfl, by rfl⟩

/-- C5: the radix-heap extract-min invariant fails on a sequence that
respects the monotone contract on `RadixHeap(max_key = 32)`.  Inserting
priorities 4, 3, 0 and extracting twice (returning 0 and then 3) leaves
node 100 live at priority 4, stranded in bucket 3 after the refill
recomputed every bucket bound; inserting node 103 at priority 5 places it
in a lower bucket than the live 4, so the next `extract_min` returns
priority 5 — not the minimum live priority 4 — and sets
`last_extracted := 5` while `(100, (4, 3))` is still live in the node map. -/
theorem radix_extract_min_code_bug :
    (do
      let h ← (RadixHeap.init 32).insert 100 4
      let h ← h.insert 101 3
      let h ← h.insert 102 0
      let (r1, h) ← h.extractMin
      let (r2, h) ← h.extractMin
      let h ← h.insert 103 5
      let (r3, h) ← h.extractMin
      pure (r1, r2, r3, h.nodeMap, h.last)) =
    Except.ok (some (102, 0), some (101, 3), some (103, 5),
      ([(100, ((4 : Q), 3))] : Dict Node (Q × Nat)), (5 : Q)) ∧
    Q.blt 4 5 = true := ⟨by rfl, by rfl⟩

/-- C6 counterexample: node 9 is not in the chain graph, yet
`find_shortest_path(9, 9)` returns `0.0` rather than `+∞`, because the
`source == target` early return precedes the membership check. -/
theorem bidirectional_absent_same_node_cex :
    BidirectionalDijkstra.findShortestPath
      (BidirectionalDijkstra.mkSt chainGraph "binary" ⟨1, 2⟩) 9 9 100
      = .ok (some 0) ∧
    Dict.mem chainGraph 9 = false ∧
    (Except.ok (some (0 : Q)) : Except Err QI) ≠ .ok none :=
  ⟨by rfl, by rfl, by simp⟩

/-- C6 amended: for every graph, queue variant, skew and fuel, if `s ≠ t`
and `s` or `t` is not a key of the graph then `find_shortest_path(s, t)`
returns `+∞`; when `s = t` it returns `0` even for absent nodes. -/
theorem bidirectional_absent_endpoint_inf (g : Graph) (ht : String) (sk : Q)
    (s t : Node) (fuel : Nat) (hne : s ≠ t)
    (habs : Dict.mem g s = false ∨ Dict.mem g t = false) :
    BidirectionalDijkstra.findShortestPath (BidirectionalDijkstra.mkSt g ht sk)
      s t fuel = .ok none := by
  unfold BidirectionalDijkstra.findShortestPath
  rw [if_neg hne, if_pos]
  show ¬ (Dict.mem g s = true) ∨ ¬ (Dict.mem g t = true)
  rcases habs with h | h
  · exact Or.inl (by simp [h])
  · exact Or.inr (by simp [h])

/-- Witness for the amended C6 theorem at a concrete absent target. -/
theorem bidirectional_absent_endpoint_inf_witness :
    (0 : Node) ≠ 9 ∧ Dict.mem chainGraph 9 = false ∧
    BidirectionalDijkstra.findShortestPath
      (BidirectionalDijkstra.mkSt chainGraph "binary" ⟨1, 2⟩) 0 9 100 = .ok none :=
  ⟨by decide, by rfl,
    bidirectional_absent_endpoint_inf chainGraph "binary" ⟨1, 2⟩ 0 9 100
      (by decide) (Or.inr (by rfl))⟩

/-- C7 counterexample: in each of the three queue variants, equal-priority
entries are not extracted in insertion order.  The radix heap pops bucket 0
from the back, so node 2 (inserted after node 1, both at priority 0) is
returned first; the binary heap's extract swaps the last entry to the root,
so node 12 (inserted after node 11, both at priority 1) is returned first;
the fibonacci heap, after a consolidation, returns node 3 although node 2
was inserted earlier at the same priority 0. -/
theorem queue_tie_insertion_order_cex :
    ((do
      let h ← (RadixHeap.init 4).insert 1 0
      let h ← h.insert 2 0
      let (r, h) ← h.extractMin
      pure (r, h.nodeMap.keys)) =
      Except.ok (some ((2 : Node), (0 : Q)), [(1 : Node)])) ∧
    ((do
      let h ← BinaryHeap.init.insert 10 0
      let h ← h.insert 11 1
      let h ← h.insert 12 1
      let (r1, h) ← h.extractMin
      let (r2, _) ← h.extractMin
      pure (r1, r2)) =
      Except.ok (some ((10 : Node), (0 : Q)), some ((12 : Node), (1 : Q)))) ∧
    ((do
      let h ← FibHeap.init.insert 0 0
      let h ← h.insert 1 0
      let h ← h.insert 2 0
      let (r1, h) ← h.extractMin
      let h ← h.insert 3 0
      let (r2, h) ← h.extractMin
      let (r3, h) ← h.extractMin
      pure (r1, r2, r3, h.nodes.keys)) =
      Except.ok (some ((0 : Node), (0 : Q)), some ((1 : Node), (0 : Q)),
        some ((3 : Node), (0 : Q)), [(2 : Node)])) :=
  ⟨by rfl, by rfl, by rfl⟩

/-- C7 amended: extraction is by priority, but equal-priority ties are
broken in an implementation-specific order rather than insertion order.
Draining the same three scenarios: the radix heap yields its equal
bucket-0 priorities most-recently-inserted first; the binary heap yields
10, 12, 11; the fibonacci heap yields 0, 1, 3, 2 — in each case the
priority sequence is the sorted one even though node order is not. -/
theorem queue_tie_implementation_order :
    ((do
      let h ← (RadixHeap.init 4).insert 1 0
      let h ← h.insert 2 0
      let (r1, h) ← h.extractMin
      let (r2, h) ← h.extractMin
      pure (r1, r2, h.size)) =
      Except.ok (some ((2 : Node), (0 : Q)), some ((1 : Node), (0 : Q)), 0)) ∧
    ((do
      let h ← BinaryHeap.init.insert 10 0
      let h ← h.insert 11 1
      let h ← h.insert 12 1
      let (r1, h) ← h.extractMin
      let (r2, h) ← h.extractMin
      let (r3, h) ← h.extractMin
      pure (r1, r2, r3, h.size)) =
      Except.ok (some ((10 : Node), (0 : Q)), some ((12 : Node), (1 : Q)),
        some ((11 : Node), (1 : Q)), 0)) ∧
    ((do
      let h ← FibHeap.init.insert 0 0
      let h ← h.insert 1 0
      let h ← h.insert 2 0
      let (r1, h) ← h.extractMin
      let h ← h.insert 3 0
      let (r2, h) ← h.extractMin
      let (r3, h) ← h.extractMin
      let (r4, h) ← h.extractMin
      pure (r1, r2, r3, r4, h.count)) =
      Except.ok (some ((0 : Node), (0 : Q)), some ((1 : Node), (0 : Q)),
        some ((3 : Node), (0 : Q)), some ((2 : Node), (0 : Q)), 0)) :=
  ⟨by rfl, by rfl, by rfl⟩


/-! ## The radix priority-offset failure of `preprocess` (claim C3) -/

/-- A star: node `0` with `n` in-neighbors `1 .. n`, each with one
weight-1 edge into `0`. -/
def starGraph (n : Nat) : Graph :=
  (0, []) :: (List.range n).map fun i => (i + 1, [(0, 1)])

/-- The reverse adjacency of the star's center. -/
def starLeafEdges (n : Nat) : List (Node × Q) :=
  (List.range n).map fun i => (i + 1, 1)

theorem Dict.lookup_set_self {α β : Type} [DecidableEq α] (d : Dict α β) (k : α) (v : β) :
    (d.set k v).lookup k = some v := by
  induction d with
  | nil => simp [Dict.set, Dict.lookup]
  | cons hd tl ih =>
    by_cases h : hd.1 = k
    · simp [Dict.set, Dict.lookup, h]
    · simp [Dict.set, Dict.lookup, h, ih]

theorem foldl_const {α β : Type} (f : α → β → α) (l : List β) (a : α)
    (h : ∀ b ∈ l, ∀ x, f x b = x) : l.foldl f a = a := by
  induction l generalizing a with
  | nil => rfl
  | cons hd tl ih =>
    rw [List.foldl_cons, h hd (by simp), ih]
    intro b hb x
    exact h b (by simp [hb]) x

theorem lookup_map_const_false (l : List Node) (x : Node) (hx : x ∈ l) :
    Dict.lookup (l.map fun n => (n, false)) x = some false := by
  induction l with
  | nil => cases hx
  | cons hd tl ih =>
    by_cases h : hd = x
    · simp [Dict.lookup, h]
    · have : x ∈ tl := by
        cases hx with
        | head => exact absurd rfl h
        | tail _ hmem => exact hmem
      simp [Dict.lookup, h, ih this]

theorem starGraph_mem_zero (n : Nat) : Dict.mem (starGraph n) 0 = true := rfl

theorem augmentKeys_star (n : Nat) : CH.augmentKeys (starGraph n) = starGraph n := by
  unfold CH.augmentKeys
  have hz : ((starGraph n).foldl (fun acc uv =>
      uv.2.foldl (fun a vw =>
        if Dict.mem (starGraph n) vw.1 ∨ a.contains vw.1 then a else a ++ [vw.1]) acc) [])
      = ([] : List Node) := by
    apply foldl_const
    intro b hb x
    have : b = ((0 : Node), ([] : List (Node × Q))) ∨
        ∃ i, b = ((i + 1 : Node), [((0 : Node), (1 : Q))]) := by
      cases hb with
      | head => exact Or.inl rfl
      | tail _ hmem =>
        rcases List.mem_map.mp hmem with ⟨i, _, rfl⟩
        exact Or.inr ⟨i, rfl⟩
    rcases this with rfl | ⟨i, rfl⟩
    · rfl
    · simp only [List.foldl_cons, List.foldl_nil]
      rw [starGraph_mem_zero]
      simp
  rw [hz]
  simp

theorem revfold_star (l : List Nat) (rev : Graph) (acc : List (Node × Q))
    (hl : rev.lookup 0 = some acc) :
    Dict.lookup ((l.map fun i => ((i + 1 : Node), [((0 : Node), (1 : Q))])).foldl
      (fun rev uv => uv.2.foldl (fun rev2 vw =>
        rev2.set vw.1 (rev2.lookupD vw.1 [] ++ [(uv.1, vw.2)])) rev) rev) 0
    = some (acc ++ l.map fun i => ((i + 1 : Node), (1 : Q))) := by
  induction l generalizing rev acc with
  | nil => simpa using hl
  | cons i tl ih =>
    rw [List.map_cons, List.foldl_cons]
    have hstep : (([((0 : Node), (1 : Q))]).foldl (fun rev2 vw =>
        rev2.set vw.1 (rev2.lookupD vw.1 [] ++ [((i + 1 : Node), vw.2)])) rev)
        = rev.set 0 (acc ++ [((i + 1 : Node), (1 : Q))]) := by
      simp [Dict.lookupD, hl]
    rw [hstep]
    rw [ih _ _ (Dict.lookup_set_self rev 0 _)]
    simp

theorem reverse_star_lookup (n : Nat) :
    Dict.lookup (BidirectionalDijkstra.buildReverseGraph (starGraph n)) 0
      = some (starLeafEdges n) := by
  unfold BidirectionalDijkstra.buildReverseGraph starGraph
  rw [List.foldl_cons]
  have h0 : Dict.lookup (((((0 : Node), ([] : List (Node × Q))) ::
      (List.range n).map fun i => ((i + 1 : Node), [((0 : Node), (1 : Q))])).map
        fun uv => (uv.1, ([] : List (Node × Q)))) ) 0 = some [] := by
    simp [Dict.lookup]
  have := revfold_star (List.range n) _ [] h0
  simpa [starLeafEdges] using this

theorem ok_bind {α β : Type} (a : α) (f : α → Except Err β) :
    (do
      let x ← Except.ok a
      f x) = f a := rfl

theorem liveNeighbors_all_false (ic : Dict Node Bool) (l : List Node)
    (h : ∀ x ∈ l, ic.lookup x = some false) :
    CH.liveNeighbors ic (l.map fun x => ((x : Node), (1 : Q))) = .ok l := by
  induction l with
  | nil => rfl
  | cons hd tl ih =>
    have hhd : Dict.getE ic hd = .ok false := by
      simp [Dict.getE, h hd (by simp)]
    have htl : CH.liveNeighbors ic (tl.map fun x => ((x : Node), (1 : Q))) = .ok tl :=
      ih fun x hx => h x (by simp [hx])
    show (do
      let c ← Dict.getE ic hd
      let tail ← CH.liveNeighbors ic (tl.map fun x => ((x : Node), (1 : Q)))
      Except.ok (if c then tail else hd :: tail)) = Except.ok (hd :: tl)
    rw [hhd, htl]
    rfl

theorem foldlM_pure_except {α β : Type} (l : List α) (b : β) :
    (l.foldlM (fun acc _ => pure acc) b : Except Err β) = pure b := by
  induction l generalizing b with
  | nil => rfl
  | cons hd tl ih => simpa [List.foldlM] using ih b

theorem countShortcuts_no_outgoing (st : CH.CHSt) (u : Node)
    (incoming : List Node) (fuel : Nat) :
    st.countShortcuts u incoming [] fuel = .ok 0 := by
  unfold CH.CHSt.countShortcuts
  exact foldlM_pure_except incoming 0

theorem mkAll_star_graph (n : Nat) :
    (CH.mkAll (starGraph n) "radix").graph = starGraph n := by
  simp [CH.mkAll, augmentKeys_star]

theorem mkAll_star_rev (n : Nat) :
    (CH.mkAll (starGraph n) "radix").reverseGraph
      = BidirectionalDijkstra.buildReverseGraph (starGraph n) := by
  simp [CH.mkAll, augmentKeys_star]

theorem mkAll_star_ic (n : Nat) :
    (CH.mkAll (starGraph n) "radix").isContracted
      = ((0 : Node), false) :: (List.range n).map fun i => ((i + 1 : Node), false) := by
  show ((CH.augmentKeys (starGraph n)).keys.map fun m => (m, false)) = _
  rw [augmentKeys_star]
  simp [starGraph, Dict.keys, Function.comp]

theorem mkAll_star_nodes (n : Nat) :
    (CH.mkAll (starGraph n) "radix").nodes
      = (0 : Node) :: (List.range n).map fun i => (i + 1 : Node) := by
  show (CH.augmentKeys (starGraph n)).keys = _
  rw [augmentKeys_star]
  simp [starGraph, Dict.keys, Function.comp]

theorem mkAll_star_ht (n : Nat) :
    (CH.mkAll (starGraph n) "radix").heapType = "radix" := by
  simp [CH.mkAll]

theorem computeImportance_star (n wf : Nat) :
    (CH.mkAll (starGraph n) "radix").computeImportance 0 wf
      = .ok (some (Q.sub (Q.ofNat 0) (Q.ofNat n))) := by
  unfold CH.CHSt.computeImportance
  rw [mkAll_star_ic, mkAll_star_rev, mkAll_star_graph]
  have h1 : Dict.getE (((0 : Node), false) ::
      (List.range n).map fun i => ((i + 1 : Node), false)) 0 = .ok false := rfl
  rw [h1, ok_bind]
  have hrev : Dict.lookupD (BidirectionalDijkstra.buildReverseGraph (starGraph n)) 0
      ([] : List (Node × Q)) = starLeafEdges n := by
    simp [Dict.lookupD, reverse_star_lookup]
  have hout : Dict.lookupD (starGraph n) 0 ([] : List (Node × Q)) = [] := by
    simp [Dict.lookupD, starGraph, Dict.lookup]
  rw [if_neg (by simp), hrev, hout]
  have hin : CH.liveNeighbors (((0 : Node), false) ::
      (List.range n).map fun i => ((i + 1 : Node), false)) (starLeafEdges n)
      = .ok ((List.range n).map fun i => i + 1) := by
    have hshape : starLeafEdges n
        = ((List.range n).map fun i => i + 1).map fun x => ((x : Node), (1 : Q)) := by
      simp [starLeafEdges]
    rw [hshape]
    apply liveNeighbors_all_false
    intro x hx
    rcases List.mem_map.mp hx with ⟨i, _hi, rfl⟩
    have : Dict.lookup ((List.range n).map fun i => ((i + 1 : Node), false)) (i + 1)
        = some false := by
      have := lookup_map_const_false ((List.range n).map fun i => (i + 1 : Node)) (i + 1)
        (by exact List.mem_map.mpr ⟨i, _hi, rfl⟩)
      simpa [Function.comp] using this
    simp [Dict.lookup, this]
  rw [hin, ok_bind]
  rw [show CH.liveNeighbors (((0 : Node), false) ::
      (List.range n).map fun i => ((i + 1 : Node), false)) ([] : List (Node × Q))
      = .ok [] from rfl, ok_bind]
  rw [countShortcuts_no_outgoing, ok_bind]
  simp

theorem foldlM_cons_except {α β : Type} (f : β → α → Except Err β) (b : β) (a : α)
    (l : List α) :
    List.foldlM f b (a :: l) = f b a >>= fun b2 => List.foldlM f b2 l := rfl

/-- C3 (code bug): `preprocess` of `contraction_hierarchy_all.py` fails on a
finite, non-negative-weighted graph.  On a star with 1,000,001 leaves, each
with one weight-1 edge into the center (the first node), the center's
importance is `0 - 1000001`; under the radix variant the seeding loop
inserts it at priority `importance + PRIORITY_OFFSET = -1`, which is below
`last_extracted = 0`, so `RadixHeap.insert` raises `ValueError` and
`preprocess` dies — for every witness-search and loop fuel. -/
theorem preprocess_radix_offset_code_bug (wf lf : Nat) :
    CH.preprocessAll (starGraph 1000001) "radix" wf lf = .error .monotonicity := by
  unfold CH.preprocessAll CH.CHSt.preprocess
  rw [mkAll_star_ht, mkAll_star_nodes]
  rw [show mkHeap "radix" (CH.mkAll (starGraph 1000001) "radix").maxKey
      = .ok (.radix (RadixHeap.init (CH.mkAll (starGraph 1000001) "radix").maxKey)) from rfl]
  rw [ok_bind, foldlM_cons_except]
  simp only [computeImportance_star, ok_bind]
  rfl

/-! ## C8: live-entry uniqueness of the three queues -/

theorem Dict.lookup_set_ne {α β : Type} [DecidableEq α] (d : Dict α β) (k a : α)
    (v : β) (h : k ≠ a) : (d.set k v).lookup a = d.lookup a := by
  induction d with
  | nil => simp [Dict.set, Dict.lookup, h]
  | cons hd tl ih =>
    by_cases hk : hd.1 = k
    · simp [Dict.set, Dict.lookup, hk, h, ih]
    · simp [Dict.set, Dict.lookup, hk, ih]

theorem Dict.mem_iff_keys {α β : Type} [DecidableEq α] (d : Dict α β) (a : α) :
    d.mem a = true ↔ a ∈ d.keys := by
  induction d with
  | nil => simp [Dict.mem, Dict.lookup, Dict.keys]
  | cons hd tl ih =>
    by_cases h : hd.1 = a
    · simp [Dict.mem, Dict.lookup, Dict.keys, h]
    · simp only [Dict.mem, Dict.lookup, Dict.keys] at ih ⊢
      rw [if_neg h]
      simp [ih, Ne.symm h]

theorem Dict.keys_set_of_mem {α β : Type} [DecidableEq α] (d : Dict α β) (k : α)
    (v : β) (h : d.mem k = true) : (d.set k v).keys = d.keys := by
  induction d with
  | nil => simp [Dict.mem, Dict.lookup] at h
  | cons hd tl ih =>
    by_cases hk : hd.1 = k
    · simp [Dict.set, hk, Dict.keys]
    · have htl : Dict.mem tl k = true := by
        simpa [Dict.mem, Dict.lookup, hk] using h
      simp only [Dict.set, if_neg hk, Dict.keys, List.map_cons]
      exact congrArg _ (ih htl)

theorem Dict.keys_set_of_not_mem {α β : Type} [DecidableEq α] (d : Dict α β) (k : α)
    (v : β) (h : d.mem k = false) : (d.set k v).keys = d.keys ++ [k] := by
  induction d with
  | nil => simp [Dict.set, Dict.keys]
  | cons hd tl ih =>
    by_cases hk : hd.1 = k
    · simp [Dict.mem, Dict.lookup, hk] at h
    · have htl : Dict.mem tl k = false := by
        simpa [Dict.mem, Dict.lookup, hk] using h
      simp only [Dict.set, if_neg hk, Dict.keys, List.map_cons, List.cons_append]
      exact congrArg _ (ih htl)

theorem Dict.del_some_keys {α β : Type} [DecidableEq α] (d d' : Dict α β) (k : α)
    (h : d.del k = some d') : d'.keys = d.keys.erase k := by
  induction d generalizing d' with
  | nil => simp [Dict.del] at h
  | cons hd tl ih =>
    by_cases hk : hd.1 = k
    · simp only [Dict.del, if_pos hk] at h
      cases h
      subst hk
      show Dict.keys tl = (Dict.keys (hd :: tl)).erase hd.1
      simp only [Dict.keys, List.map_cons, List.erase_cons_head]
    · simp only [Dict.del, if_neg hk] at h
      match htl : Dict.del tl k with
      | none => rw [htl] at h; simp at h
      | some tl2 =>
        rw [htl] at h
        simp only [Option.map_some'] at h
        cases h
        have hne : (hd.1 == k) = false := by simpa using hk
        simp only [Dict.keys, List.map_cons, List.erase_cons, hne, if_false]
        simp only [Bool.false_eq_true, if_false]
        exact congrArg _ (ih tl2 htl)

theorem Dict.del_isSome_of_mem {α β : Type} [DecidableEq α] (d : Dict α β) (k : α)
    (h : d.mem k = true) : ∃ d', d.del k = some d' := by
  induction d with
  | nil => simp [Dict.mem, Dict.lookup] at h
  | cons hd tl ih =>
    by_cases hk : hd.1 = k
    · exact ⟨tl, by simp [Dict.del, hk]⟩
    · have htl : Dict.mem tl k = true := by
        simpa [Dict.mem, Dict.lookup, hk] using h
      rcases ih htl with ⟨d', hd'⟩
      exact ⟨(hd.1, hd.2) :: d', by simp [Dict.del, hk, hd']⟩

/-- Replacing the element at position `k` while moving it to the front is a
permutation (auxiliary step of the `_swap` lemma). -/
theorem cons_set_perm {α : Type} (t : List α) (k : Nat) (xj a : α)
    (h : t.get? k = some xj) : (xj :: t.set k a).Perm (a :: t) := by
  induction t generalizing k with
  | nil => simp at h
  | cons b t2 ih =>
    cases k with
    | zero =>
      have h2 : b = xj := by simpa using h
      rw [← h2]
      simpa [List.set] using List.Perm.swap a b t2
    | succ m =>
      have h2 : t2.get? m = some xj := by simpa using h
      have hih := ih m h2
      have h1 : ((b :: t2).set (m + 1) a) = b :: t2.set m a := by simp [List.set]
      rw [h1]
      exact ((List.Perm.swap b xj (t2.set m a)).trans
        ((hih.cons b).trans (List.Perm.swap a b t2)))

/-- The double `set` of `_swap` is a permutation. -/
theorem set_set_perm {α : Type} (l : List α) (i j : Nat) (xi xj : α)
    (hij : i ≠ j) (hi : l.get? i = some xi) (hj : l.get? j = some xj) :
    ((l.set i xj).set j xi).Perm l := by
  induction l generalizing i j with
  | nil => simp at hi
  | cons a t ih =>
    cases i with
    | zero =>
      cases j with
      | zero => exact absurd rfl hij
      | succ k =>
        have hi2 : a = xi := by simpa using hi
        have hj2 : t.get? k = some xj := by simpa using hj
        rw [hi2]
        have h1 : (((xi :: t).set 0 xj).set (k + 1) xi) = xj :: t.set k xi := by
          simp [List.set]
        rw [h1]
        exact cons_set_perm t k xj xi hj2
    | succ m =>
      cases j with
      | zero =>
        have hj2 : a = xj := by simpa using hj
        have hi2 : t.get? m = some xi := by simpa using hi
        rw [hj2]
        have h1 : (((xj :: t).set (m + 1) xj).set 0 xi) = xi :: t.set m xj := by
          simp [List.set]
        rw [h1]
        exact cons_set_perm t m xi xj hi2
      | succ k =>
        have hi2 : t.get? m = some xi := by simpa using hi
        have hj2 : t.get? k = some xj := by simpa using hj
        have h1 : (((a :: t).set (m + 1) xj).set (k + 1) xi)
            = a :: (t.set m xj).set k xi := by simp [List.set]
        rw [h1]
        exact (ih m k (fun hmk => hij (by simp [hmk])) hi2 hj2).cons a

/-- The C8 invariant for a binary heap: the position map's key list and the
array's identifier list are both permutations of the ghost live list, the
key list has no duplicates, and neither does the live list. -/
def BinaryHeap.Inv (b : BinaryHeap) (live : List Node) : Prop :=
  b.pos.keys.Perm live ∧
  b.pos.keys.Nodup ∧
  (b.heap.map Prod.fst).Perm live ∧
  live.Nodup

theorem BinaryHeap.swap_spec (b b' : BinaryHeap) (i j : Nat)
    (hsub : ∀ n, n ∈ b.heap.map Prod.fst → b.pos.mem n = true)
    (h : b.swap i j = some b') :
    b'.heap.Perm b.heap ∧ b'.pos.keys = b.pos.keys := by
  unfold BinaryHeap.swap at h
  by_cases hij : i = j
  · rw [if_pos hij] at h
    cases h
    exact ⟨List.Perm.refl _, rfl⟩
  · rw [if_neg hij] at h
    match hgi : b.heap.get? i, hgj : b.heap.get? j with
    | some xi, some xj =>
      rw [hgi, hgj] at h
      cases h
      have hxi : b.pos.mem xi.1 = true :=
        hsub _ (List.mem_map_of_mem Prod.fst (List.get?_mem hgi))
      have hxj : b.pos.mem xj.1 = true :=
        hsub _ (List.mem_map_of_mem Prod.fst (List.get?_mem hgj))
      have hk1 : (b.pos.set xi.1 j).keys = b.pos.keys :=
        Dict.keys_set_of_mem _ _ _ hxi
      have hxj2 : (b.pos.set xi.1 j).mem xj.1 = true := by
        rw [Dict.mem_iff_keys, hk1]
        exact (Dict.mem_iff_keys _ _).mp hxj
      constructor
      · exact set_set_perm b.heap i j xi xj hij hgi hgj
      · rw [Dict.keys_set_of_mem _ _ _ hxj2, hk1]
    | some xi, none => rw [hgi, hgj] at h; cases h
    | none, _ => rw [hgi] at h; cases h

theorem BinaryHeap.siftUp_spec (fuel : Nat) :
    ∀ (b : BinaryHeap) (i : Nat) (b' : BinaryHeap),
    (∀ n, n ∈ b.heap.map Prod.fst → b.pos.mem n = true) →
    b.siftUp i fuel = some b' →
    b'.heap.Perm b.heap ∧ b'.pos.keys = b.pos.keys := by
  induction fuel with
  | zero => intro b i b' _ h; cases h
  | succ fuel ih =>
    intro b i b' hsub h
    unfold BinaryHeap.siftUp at h
    by_cases hi : i > 0
    · rw [if_pos hi] at h
      match hgi : b.heap.get? i, hgp : b.heap.get? ((i - 1) / 2) with
      | some xi, some xp =>
        simp only [hgi, hgp] at h
        by_cases hcmp : Q.blt xi.2 xp.2 = true
        · rw [if_pos hcmp] at h
          match hsw : b.swap i ((i - 1) / 2) with
          | some h1 =>
            rw [hsw] at h
            have hs := BinaryHeap.swap_spec b h1 _ _ hsub hsw
            have hsub1 : ∀ n, n ∈ h1.heap.map Prod.fst → h1.pos.mem n = true := by
              intro n hn
              rw [Dict.mem_iff_keys, hs.2]
              exact (Dict.mem_iff_keys _ _).mp
                (hsub n ((hs.1.map Prod.fst).mem_iff.mp hn))
            have hr := ih h1 _ b' hsub1 h
            exact ⟨hr.1.trans hs.1, hr.2.trans hs.2⟩
          | none => rw [hsw] at h; cases h
        · rw [if_neg hcmp] at h
          cases h
          exact ⟨List.Perm.refl _, rfl⟩
      | some xi, none => simp only [hgi, hgp] at h; exact Option.noConfusion h
      | none, _ => simp only [hgi] at h; exact Option.noConfusion h
    · rw [if_neg hi] at h
      cases h
      exact ⟨List.Perm.refl _, rfl⟩

theorem BinaryHeap.siftDown_spec (fuel : Nat) :
    ∀ (b : BinaryHeap) (i : Nat) (b' : BinaryHeap),
    (∀ n, n ∈ b.heap.map Prod.fst → b.pos.mem n = true) →
    b.siftDown i fuel = some b' →
    b'.heap.Perm b.heap ∧ b'.pos.keys = b.pos.keys := by
  induction fuel with
  | zero => intro b i b' _ h; cases h
  | succ fuel ih =>
    intro b i b' hsub h
    unfold BinaryHeap.siftDown at h
    match hgi : b.heap.get? i with
    | none => simp only [hgi] at h; exact Option.noConfusion h
    | some xi =>
      simp only [hgi] at h
      split at h
      · split at h
        · next h1 hsw =>
          have hs := BinaryHeap.swap_spec b h1 _ _ hsub hsw
          have hsub1 : ∀ n, n ∈ h1.heap.map Prod.fst → h1.pos.mem n = true := by
            intro n hn
            rw [Dict.mem_iff_keys, hs.2]
            exact (Dict.mem_iff_keys _ _).mp
              (hsub n ((hs.1.map Prod.fst).mem_iff.mp hn))
          have hr := ih h1 _ b' hsub1 h
          exact ⟨hr.1.trans hs.1, hr.2.trans hs.2⟩
        · next hsw => exact Option.noConfusion h
      · cases h
        exact ⟨List.Perm.refl _, rfl⟩

theorem Dict.mem_set_self {α β : Type} [DecidableEq α] (d : Dict α β) (k : α)
    (v : β) : (d.set k v).mem k = true := by
  simp [Dict.mem, Dict.lookup_set_self]

theorem Dict.mem_set_ne {α β : Type} [DecidableEq α] (d : Dict α β) (k a : α)
    (v : β) (h : k ≠ a) : (d.set k v).mem a = d.mem a := by
  simp [Dict.mem, Dict.lookup_set_ne d k a v h]

theorem Dict.del_mem_of_some {α β : Type} [DecidableEq α] (d d' : Dict α β)
    (k : α) (h : d.del k = some d') : d.mem k = true := by
  induction d generalizing d' with
  | nil => simp [Dict.del] at h
  | cons hd tl ih =>
    by_cases hk : hd.1 = k
    · simp [Dict.mem, Dict.lookup, hk]
    · simp only [Dict.del, if_neg hk] at h
      match htl : Dict.del tl k with
      | none => rw [htl] at h; simp at h
      | some tl2 =>
        have := ih tl2 htl
        simpa [Dict.mem, Dict.lookup, hk] using this

theorem Dict.mem_iff_mem_keys {α β : Type} [DecidableEq α] (d : Dict α β)
    (a : α) : d.mem a = true ↔ a ∈ d.keys := Dict.mem_iff_keys d a

/-- A list with a known last element is its `dropLast` followed by that
element. -/
theorem getLast?_decomp {α : Type} (l : List α) (a : α)
    (h : l.getLast? = some a) : l.dropLast ++ [a] = l := by
  induction l with
  | nil => simp at h
  | cons x t ih =>
    match t with
    | [] =>
      have : x = a := by simpa [List.getLast?] using h
      simp [this]
    | y :: t2 =>
      have h2 : (y :: t2).getLast? = some a := by
        simpa [List.getLast?_cons_cons] using h
      have := ih h2
      simpa [List.dropLast] using congrArg (x :: ·) this

/-- Cancelling the appended element of a permutation with a duplicate-free
right side. -/
theorem perm_erase_of_append_singleton {α : Type} [DecidableEq α]
    (l live : List α) (a : α) (h : (l ++ [a]).Perm live) (ha : a ∈ live) :
    l.Perm (live.erase a) := by
  have h1 : (a :: l).Perm live := (List.perm_append_comm.trans h : _)
  have h2 : live.Perm (a :: live.erase a) := List.perm_cons_erase ha
  exact (h1.trans h2).cons_inv

/-- Setting a slot to the value it already holds is the identity. -/
theorem set_get_self {α : Type} (l : List α) (i : Nat) (a : α)
    (h : l.get? i = some a) : l.set i a = l := by
  induction l generalizing i with
  | nil => simp at h
  | cons x t ih =>
    cases i with
    | zero =>
      have : x = a := by simpa using h
      simp [List.set, this]
    | succ m =>
      have h2 : t.get? m = some a := by simpa using h
      simp [List.set, ih m h2]

theorem binary_insert_spec (b b' : BinaryHeap) (n : Node) (p : Q)
    (live : List Node) (hinv : b.Inv live) (h : b.insert n p = .ok b') :
    b'.Inv (live ++ [n]) := by
  obtain ⟨hpk, hnd, hhp, hlnd⟩ := hinv
  unfold BinaryHeap.insert at h
  by_cases hmem : b.pos.mem n = true
  · rw [if_pos hmem] at h; cases h
  · have hmem' : b.pos.mem n = false := by
      cases hb : b.pos.mem n
      · rfl
      · exact absurd hb hmem
    rw [if_neg hmem] at h
    simp only at h
    have hnlive : n ∉ live := fun hc =>
      hmem (by rw [Dict.mem_iff_keys]; exact hpk.mem_iff.mpr hc)
    have hnkeys : n ∉ b.pos.keys := fun hc => hmem (by rw [Dict.mem_iff_keys]; exact hc)
    have hkeys1 : (b.pos.set n (b.heap ++ [(n, p)]).length.pred).keys
        = b.pos.keys ++ [n] := Dict.keys_set_of_not_mem _ _ _ hmem'
    match hsift :
        BinaryHeap.siftUp
          ⟨b.heap ++ [(n, p)], b.pos.set n ((b.heap ++ [(n, p)]).length - 1)⟩
          ((b.heap ++ [(n, p)]).length - 1) ((b.heap ++ [(n, p)]).length - 1 + 1) with
    | none => rw [hsift] at h; cases h
    | some h2 =>
      rw [hsift] at h
      cases h
      have hsub : ∀ m, m ∈ ((b.heap ++ [(n, p)]).map Prod.fst) →
          (b.pos.set n ((b.heap ++ [(n, p)]).length - 1)).mem m = true := by
        intro m hm
        rw [List.map_append] at hm
        rcases List.mem_append.mp hm with hm1 | hm2
        · have hm3 : m ∈ live := hhp.mem_iff.mp hm1
          have hm4 : b.pos.mem m = true := by
            rw [Dict.mem_iff_keys]; exact hpk.mem_iff.mpr hm3
          by_cases hmn : n = m
          · rw [← hmn]; exact Dict.mem_set_self _ _ _
          · rw [Dict.mem_set_ne _ _ _ _ hmn]; exact hm4
        · have hm3 : m = n := by simpa using hm2
          rw [hm3]; exact Dict.mem_set_self _ _ _
      have hs := BinaryHeap.siftUp_spec _ _ _ _ hsub hsift
      refine ⟨?_, ?_, ?_, ?_⟩
      · rw [hs.2]
        have : (b.pos.set n ((b.heap ++ [(n, p)]).length - 1)).keys
            = b.pos.keys ++ [n] := Dict.keys_set_of_not_mem _ _ _ hmem'
        rw [this]
        exact hpk.append (List.Perm.refl [n])
      · rw [hs.2]
        have : (b.pos.set n ((b.heap ++ [(n, p)]).length - 1)).keys
            = b.pos.keys ++ [n] := Dict.keys_set_of_not_mem _ _ _ hmem'
        rw [this]
        rw [List.nodup_append]
        exact ⟨hnd, List.nodup_singleton n, by simpa using hnkeys⟩
      · refine (hs.1.map Prod.fst).trans ?_
        rw [List.map_append]
        simpa using hhp.append (List.Perm.refl [n])
      · rw [List.nodup_append]
        exact ⟨hlnd, List.nodup_singleton n, by simpa using hnlive⟩

theorem binary_decreaseKey_spec (b b' : BinaryHeap) (n : Node) (p : Q)
    (live : List Node) (hinv : b.Inv live) (h : b.decreaseKey n p = .ok b') :
    b'.Inv live := by
  obtain ⟨hpk, hnd, hhp, hlnd⟩ := hinv
  unfold BinaryHeap.decreaseKey at h
  match hlk : b.pos.lookup n with
  | none => rw [hlk] at h; cases h
  | some idx =>
    simp only [hlk] at h
    match hg : b.heap.get? idx with
    | none => rw [hg] at h; cases h
    | some x =>
      simp only [hg] at h
      by_cases hc : Q.ble x.2 p = true
      · rw [if_pos hc] at h
        cases h
        exact ⟨hpk, hnd, hhp, hlnd⟩
      · rw [if_neg hc] at h
        match hsift : BinaryHeap.siftUp ⟨b.heap.set idx (x.1, p), b.pos⟩
            idx (idx + 1) with
        | none => rw [hsift] at h; cases h
        | some h2 =>
          rw [hsift] at h
          cases h
          have hmapeq : (b.heap.set idx (x.1, p)).map Prod.fst
              = b.heap.map Prod.fst := by
            rw [List.map_set]
            have hg2 : (b.heap.map Prod.fst).get? idx = some x.1 := by
              rw [List.get?_map, hg]; rfl
            exact set_get_self _ _ _ hg2
          have hsub : ∀ m, m ∈ ((b.heap.set idx (x.1, p)).map Prod.fst) →
              b.pos.mem m = true := by
            intro m hm
            rw [hmapeq] at hm
            rw [Dict.mem_iff_keys]
            exact hpk.mem_iff.mpr (hhp.mem_iff.mp hm)
          have hs := BinaryHeap.siftUp_spec _ _ _ _ hsub hsift
          refine ⟨?_, ?_, ?_, hlnd⟩
          · rw [hs.2]; exact hpk
          · rw [hs.2]; exact hnd
          · refine (hs.1.map Prod.fst).trans ?_
            rw [hmapeq]
            exact hhp

theorem binary_extractMin_spec (b b' : BinaryHeap)
    (r : Option (Node × Q)) (live : List Node) (hinv : b.Inv live)
    (h : b.extractMin = .ok (r, b')) :
    (r = none ∧ b' = b ∧ b.Inv live) ∨
    (∃ np, r = some np ∧ np.1 ∈ live ∧ b'.Inv (live.erase np.1)) := by
  obtain ⟨hpk, hnd, hhp, hlnd⟩ := hinv
  unfold BinaryHeap.extractMin at h
  by_cases hemp : b.heap.isEmpty = true
  · rw [if_pos hemp] at h
    cases h
    exact .inl ⟨rfl, rfl, hpk, hnd, hhp, hlnd⟩
  · rw [if_neg hemp] at h
    have hsub : ∀ m, m ∈ b.heap.map Prod.fst → b.pos.mem m = true := by
      intro m hm
      rw [Dict.mem_iff_keys]
      exact hpk.mem_iff.mpr (hhp.mem_iff.mp hm)
    match hsw : b.swap 0 (b.heap.length - 1) with
    | none => rw [hsw] at h; cases h
    | some h1 =>
      simp only [hsw] at h
      have hs1 := BinaryHeap.swap_spec b h1 _ _ hsub hsw
      match hlast : h1.heap.getLast? with
      | none => rw [hlast] at h; cases h
      | some np =>
        simp only [hlast] at h
        match hdel : h1.pos.del np.1 with
        | none => rw [hdel] at h; cases h
        | some pos1 =>
          simp only [hdel] at h
          have hdecomp : h1.heap.dropLast ++ [np] = h1.heap :=
            getLast?_decomp _ _ hlast
          have hperm1 : (h1.heap.dropLast.map Prod.fst ++ [np.1]).Perm live := by
            have : (h1.heap.dropLast ++ [np]).map Prod.fst
                = h1.heap.dropLast.map Prod.fst ++ [np.1] := by
              simp
            rw [← this, hdecomp]
            exact (hs1.1.map Prod.fst).trans hhp
          have hnplive : np.1 ∈ live :=
            hperm1.mem_iff.mp (List.mem_append.mpr (.inr (by simp)))
          have hdroplast : (h1.heap.dropLast.map Prod.fst).Perm (live.erase np.1) :=
            perm_erase_of_append_singleton _ _ _ hperm1 hnplive
          have hkeys1 : pos1.keys = b.pos.keys.erase np.1 := by
            rw [Dict.del_some_keys h1.pos pos1 np.1 hdel, hs1.2]
          have hpos1p : pos1.keys.Perm (live.erase np.1) := by
            rw [hkeys1]
            exact hpk.erase np.1
          have hpos1nd : pos1.keys.Nodup := by
            rw [hkeys1]
            exact hnd.erase np.1
          have herasend : (live.erase np.1).Nodup := hlnd.erase np.1
          by_cases hemp2 : h1.heap.dropLast.isEmpty = true
          · rw [if_pos hemp2] at h
            cases h
            exact .inr ⟨np, rfl, hnplive, hpos1p, hpos1nd, hdroplast, herasend⟩
          · rw [if_neg hemp2] at h
            match hsift : BinaryHeap.siftDown ⟨h1.heap.dropLast, pos1⟩ 0
                (h1.heap.dropLast.length + 1) with
            | none => rw [hsift] at h; cases h
            | some h3 =>
              rw [hsift] at h
              cases h
              have hsub2 : ∀ m,
                  m ∈ (BinaryHeap.mk h1.heap.dropLast pos1).heap.map Prod.fst →
                  (BinaryHeap.mk h1.heap.dropLast pos1).pos.mem m = true := by
                intro m hm
                rw [Dict.mem_iff_keys]
                exact hpos1p.mem_iff.mpr (hdroplast.mem_iff.mp hm)
              have hs3 := BinaryHeap.siftDown_spec _ _ _ _ hsub2 hsift
              refine .inr ⟨np, rfl, hnplive, ?_, ?_, ?_, herasend⟩
              · rw [hs3.2]; exact hpos1p
              · rw [hs3.2]; exact hpos1nd
              · exact (hs3.1.map Prod.fst).trans hdroplast

theorem error_bind {α β : Type} (e : Err) (f : α → Except Err β) :
    (do
      let x ← Except.error e
      f x) = Except.error e := rfl

/-- A successful bind factors through a successful first component. -/
theorem bind_ok_exists {α β : Type} (e : Except Err α) (f : α → Except Err β)
    (b : β) (h : (e >>= f) = .ok b) : ∃ a, e = .ok a ∧ f a = .ok b := by
  match e with
  | .error err => cases h
  | .ok a => exact ⟨a, rfl, h⟩

/-- The C8 invariant for a Fibonacci heap: the handle map's key list is a
duplicate-free permutation of the ghost live list and `count` is its
length. -/
def FibHeap.Inv (f : FibHeap) (live : List Node) : Prop :=
  f.nodes.keys.Perm live ∧ f.nodes.keys.Nodup ∧ f.count = live.length ∧
  live.Nodup

theorem FibHeap.wr_nodes (h : FibHeap) (i : Nat) (f : FibNode → FibNode) :
    (h.wr i f).nodes = h.nodes := rfl

theorem FibHeap.wr_count (h : FibHeap) (i : Nat) (f : FibNode → FibNode) :
    (h.wr i f).count = h.count := rfl

theorem FibHeap.mergeRoot_pres (h h' : FibHeap) (i : Nat)
    (hk : h.mergeRoot i = .ok h') : h'.nodes = h.nodes ∧ h'.count = h.count := by
  unfold FibHeap.mergeRoot at hk
  match hm : h.minIdx with
  | none =>
    simp only [hm] at hk
    cases hk
    exact ⟨rfl, rfl⟩
  | some m =>
    simp only [hm] at hk
    match hr : h.rd m with
    | .error e => rw [hr] at hk; cases hk
    | .ok mrec =>
      simp only [hr, ok_bind] at hk
      cases hk
      exact ⟨rfl, rfl⟩

theorem FibHeap.removeFromList_pres (h h' : FibHeap) (i : Nat)
    (hk : h.removeFromList i = .ok h') :
    h'.nodes = h.nodes ∧ h'.count = h.count := by
  unfold FibHeap.removeFromList at hk
  match hr : h.rd i with
  | .error e => rw [hr] at hk; cases hk
  | .ok x =>
    simp only [hr, ok_bind] at hk
    cases hk
    exact ⟨rfl, rfl⟩

seal FibHeap.wr FibHeap.rd in
theorem FibHeap.link_pres (h h' : FibHeap) (y x : Nat)
    (hk : h.link y x = .ok h') : h'.nodes = h.nodes ∧ h'.count = h.count := by
  unfold FibHeap.link at hk
  match hrm : h.removeFromList y with
  | .error e => rw [hrm] at hk; cases hk
  | .ok h1 =>
    have h1p := FibHeap.removeFromList_pres h h1 y hrm
    simp only [hrm] at hk
    match hrd : FibHeap.rd (h1.wr y fun n => { n with parent := some x }) x with
    | .error e => rw [hrd] at hk; cases hk
    | .ok xrec =>
      simp only [hrd] at hk
      match hc : xrec.child with
      | none =>
        simp only [hc] at hk
        cases hk
        simp only [FibHeap.wr_nodes, FibHeap.wr_count]
        exact h1p
      | some c =>
        simp only [hc] at hk
        match hrc : FibHeap.rd (h1.wr y fun n => { n with parent := some x }) c with
        | .error e => rw [hrc] at hk; cases hk
        | .ok crec =>
          simp only [hrc] at hk
          cases hk
          simp only [FibHeap.wr_nodes, FibHeap.wr_count]
          exact h1p

theorem FibHeap.consolidateWhile_pres (fuel : Nat) :
    ∀ (h : FibHeap) (A : List (Option Nat)) (x d : Nat)
    (r : FibHeap × List (Option Nat) × Nat × Nat),
    h.consolidateWhile A x d fuel = .ok r →
    r.1.nodes = h.nodes ∧ r.1.count = h.count := by
  induction fuel with
  | zero => intro h A x d r hk; cases hk
  | succ fuel ih =>
    intro h A x d r hk
    unfold FibHeap.consolidateWhile at hk
    match hA : A.get? d with
    | none => simp only [hA] at hk; cases hk
    | some none =>
      simp only [hA] at hk
      cases hk
      exact ⟨rfl, rfl⟩
    | some (some y) =>
      simp only [hA] at hk
      match hrx : h.rd x with
      | .error e => rw [hrx] at hk; cases hk
      | .ok xr =>
        simp only [hrx, ok_bind] at hk
        match hry : h.rd y with
        | .error e => rw [hry] at hk; cases hk
        | .ok yr =>
          simp only [hry, ok_bind] at hk
          match hl : h.link (if Q.blt yr.key xr.key then (y, x) else (x, y)).2
              (if Q.blt yr.key xr.key then (y, x) else (x, y)).1 with
          | .error e => rw [hl] at hk; cases hk
          | .ok h1 =>
            have hlp := FibHeap.link_pres h h1 _ _ hl
            simp only [hl, ok_bind] at hk
            have hrec := ih h1 _ _ _ _ hk
            exact ⟨hrec.1.trans hlp.1, hrec.2.trans hlp.2⟩

theorem FibHeap.consolidateRoots_pres (ws : List Nat) :
    ∀ (h : FibHeap) (A : List (Option Nat)) (r : FibHeap × List (Option Nat)),
    h.consolidateRoots A ws = .ok r →
    r.1.nodes = h.nodes ∧ r.1.count = h.count := by
  induction ws with
  | nil =>
    intro h A r hk
    unfold FibHeap.consolidateRoots at hk
    cases hk
    exact ⟨rfl, rfl⟩
  | cons w rest ih =>
    intro h A r hk
    unfold FibHeap.consolidateRoots at hk
    match hrw : h.rd w with
    | .error e => rw [hrw] at hk; cases hk
    | .ok wrec =>
      simp only [hrw, ok_bind] at hk
      match hcw : h.consolidateWhile A w wrec.degree (A.length + 1) with
      | .error e => rw [hcw] at hk; cases hk
      | .ok cwr =>
        have hcwp := FibHeap.consolidateWhile_pres _ _ _ _ _ _ hcw
        simp only [hcw, ok_bind] at hk
        match hg : cwr.2.1.get? cwr.2.2.2 with
        | none => simp only [hg] at hk; cases hk
        | some _ =>
          simp only [hg] at hk
          have hrec := ih _ _ _ hk
          exact ⟨hrec.1.trans hcwp.1, hrec.2.trans hcwp.2⟩

theorem FibHeap.consolidateFinish_pres (A : List (Option Nat)) :
    ∀ (h h' : FibHeap), h.consolidateFinish A = .ok h' →
    h'.nodes = h.nodes ∧ h'.count = h.count := by
  induction A with
  | nil =>
    intro h h' hk
    unfold FibHeap.consolidateFinish at hk
    cases hk
    exact ⟨rfl, rfl⟩
  | cons a rest ih =>
    intro h h' hk
    match a with
    | none =>
      unfold FibHeap.consolidateFinish at hk
      exact ih _ _ hk
    | some x =>
      unfold FibHeap.consolidateFinish at hk
      match hm : h.minIdx with
      | none =>
        simp only [hm] at hk
        have hrec := ih _ _ hk
        exact hrec
      | some m =>
        simp only [hm] at hk
        match hmr : h.mergeRoot x with
        | .error e => rw [hmr] at hk; cases hk
        | .ok h1 =>
          have h1p := FibHeap.mergeRoot_pres h h1 x hmr
          simp only [hmr, ok_bind] at hk
          match hrx : h1.rd x with
          | .error e => rw [hrx] at hk; cases hk
          | .ok xr =>
            simp only [hrx, ok_bind] at hk
            match hrm2 : h1.rd m with
            | .error e => rw [hrm2] at hk; cases hk
            | .ok mr =>
              simp only [hrm2, ok_bind] at hk
              by_cases hq : Q.blt xr.key mr.key = true
              · rw [if_pos hq] at hk
                have hrec := ih _ _ hk
                exact ⟨hrec.1.trans h1p.1, hrec.2.trans h1p.2⟩
              · rw [if_neg hq] at hk
                have hrec := ih _ _ hk
                exact ⟨hrec.1.trans h1p.1, hrec.2.trans h1p.2⟩

theorem FibHeap.consolidate_pres (h h' : FibHeap)
    (hk : h.consolidate = .ok h') : h'.nodes = h.nodes ∧ h'.count = h.count := by
  unfold FibHeap.consolidate at hk
  match hm : h.minIdx with
  | none => simp only [hm] at hk; cases hk
  | some m =>
    simp only [hm] at hk
    match hcl : h.cycleList m with
    | .error e => rw [hcl] at hk; cases hk
    | .ok roots =>
      simp only [hcl, ok_bind] at hk
      match hcr : h.consolidateRoots
          (List.replicate (natLog2 h.count + 2) none) roots with
      | .error e => rw [hcr] at hk; cases hk
      | .ok r =>
        have hcrp := FibHeap.consolidateRoots_pres _ _ _ _ hcr
        simp only [hcr, ok_bind] at hk
        have hfin := FibHeap.consolidateFinish_pres _ _ _ hk
        exact ⟨hfin.1.trans hcrp.1, hfin.2.trans hcrp.2⟩

theorem FibHeap.cut_pres (h h' : FibHeap) (x y : Nat)
    (hk : h.cut x y = .ok h') : h'.nodes = h.nodes ∧ h'.count = h.count := by
  unfold FibHeap.cut at hk
  match hry : h.rd y with
  | .error e => rw [hry] at hk; cases hk
  | .ok yr =>
    simp only [hry, ok_bind] at hk
    match hrx : h.rd x with
    | .error e => rw [hrx] at hk; cases hk
    | .ok xr =>
      simp only [hrx, ok_bind] at hk
      set h1 := if yr.child = some x then
          if xr.right ≠ x then h.wr y fun n => { n with child := some xr.right }
          else h.wr y fun n => { n with child := none }
        else h with hh1
      have h1nodes : h1.nodes = h.nodes := by
        rw [hh1]
        by_cases h1c : yr.child = some x
        · rw [if_pos h1c]
          by_cases h2c : xr.right ≠ x
          · rw [if_pos h2c]; rfl
          · rw [if_neg h2c]; rfl
        · rw [if_neg h1c]
      have h1count : h1.count = h.count := by
        rw [hh1]
        by_cases h1c : yr.child = some x
        · rw [if_pos h1c]
          by_cases h2c : xr.right ≠ x
          · rw [if_pos h2c]; rfl
          · rw [if_neg h2c]; rfl
        · rw [if_neg h1c]
      match hrm : h1.removeFromList x with
      | .error e => rw [hrm] at hk; cases hk
      | .ok h2 =>
        have h2p := FibHeap.removeFromList_pres h1 h2 x hrm
        simp only [hrm, ok_bind] at hk
        match hmr : FibHeap.mergeRoot
            (h2.wr y fun n => { n with degree := n.degree - 1 }) x with
        | .error e => rw [hmr] at hk; cases hk
        | .ok h4 =>
          have h4p := FibHeap.mergeRoot_pres _ h4 x hmr
          simp only [hmr, ok_bind] at hk
          cases hk
          refine ⟨?_, ?_⟩
          · show h4.nodes = h.nodes
            rw [h4p.1]
            show h2.nodes = h.nodes
            rw [h2p.1, h1nodes]
          · show h4.count = h.count
            rw [h4p.2]
            show h2.count = h.count
            rw [h2p.2, h1count]

theorem FibHeap.cascadingCut_pres (fuel : Nat) :
    ∀ (h h' : FibHeap) (y : Nat), h.cascadingCut y fuel = .ok h' →
    h'.nodes = h.nodes ∧ h'.count = h.count := by
  induction fuel with
  | zero => intro h h' y hk; cases hk
  | succ fuel ih =>
    intro h h' y hk
    unfold FibHeap.cascadingCut at hk
    match hry : h.rd y with
    | .error e => rw [hry] at hk; cases hk
    | .ok yr =>
      simp only [hry, ok_bind] at hk
      match hp : yr.parent with
      | none =>
        simp only [hp] at hk
        cases hk
        exact ⟨rfl, rfl⟩
      | some z =>
        simp only [hp] at hk
        by_cases hm : yr.mark = false
        · rw [if_pos hm] at hk
          cases hk
          exact ⟨rfl, rfl⟩
        · rw [if_neg hm] at hk
          match hc : h.cut y z with
          | .error e => simp only [hc] at hk; cases hk
          | .ok h1 =>
            have h1p := FibHeap.cut_pres h h1 y z hc
            simp only [hc, ok_bind] at hk
            have hrec := ih h1 h' z hk
            exact ⟨hrec.1.trans h1p.1, hrec.2.trans h1p.2⟩

theorem FibHeap.foldMerge_pres (kids : List Nat) :
    ∀ (h h' : FibHeap),
    kids.foldlM (fun hh x => do
      let hh1 ← hh.mergeRoot x
      pure (hh1.wr x fun n => { n with parent := none })) h = .ok h' →
    h'.nodes = h.nodes ∧ h'.count = h.count := by
  induction kids with
  | nil =>
    intro h h' hk
    rw [List.foldlM_nil] at hk
    cases hk
    exact ⟨rfl, rfl⟩
  | cons x rest ih =>
    intro h h' hk
    rw [List.foldlM_cons] at hk
    match hmr : h.mergeRoot x with
    | .error e => rw [hmr] at hk; cases hk
    | .ok h1 =>
      have h1p := FibHeap.mergeRoot_pres h h1 x hmr
      simp only [hmr, ok_bind, pure_bind] at hk
      have hrec := ih _ _ hk
      exact ⟨hrec.1.trans h1p.1, hrec.2.trans h1p.2⟩

theorem fib_insert_spec (h h' : FibHeap) (n : Node) (p : Q)
    (live : List Node) (hinv : h.Inv live) (hk : h.insert n p = .ok h') :
    h'.Inv (live ++ [n]) := by
  obtain ⟨hperm, hnd, hcount, hlnd⟩ := hinv
  unfold FibHeap.insert at hk
  by_cases hmem : h.nodes.mem n = true
  · rw [if_pos hmem] at hk; cases hk
  · have hmem' : h.nodes.mem n = false := by
      cases hb : h.nodes.mem n
      · rfl
      · exact absurd hb hmem
    rw [if_neg hmem] at hk
    have hnlive : n ∉ live := fun hc =>
      hmem (by rw [Dict.mem_iff_keys]; exact hperm.mem_iff.mpr hc)
    have hnkeys : n ∉ h.nodes.keys := fun hc =>
      hmem (by rw [Dict.mem_iff_keys]; exact hc)
    simp only at hk
    match hmr : FibHeap.mergeRoot
        ⟨h.arena.push ⟨n, p, none, none, h.arena.size, h.arena.size, 0, false⟩,
         h.minIdx, h.count, h.nodes⟩ h.arena.size with
    | .error e => rw [hmr] at hk; cases hk
    | .ok h2 =>
      have h2p := FibHeap.mergeRoot_pres _ h2 _ hmr
      simp only [hmr, ok_bind] at hk
      have h2nodes : h2.nodes = h.nodes := h2p.1
      have h2count : h2.count = h.count := h2p.2
      match hm2 : h2.minIdx with
      | none =>
        simp only [hm2, pure_bind, ok_bind] at hk
        cases hk
        refine ⟨?_, ?_, ?_, ?_⟩
        · show (h2.nodes.set n h.arena.size).keys.Perm (live ++ [n])
          rw [h2nodes, Dict.keys_set_of_not_mem _ _ _ hmem']
          exact hperm.append (List.Perm.refl [n])
        · show (h2.nodes.set n h.arena.size).keys.Nodup
          rw [h2nodes, Dict.keys_set_of_not_mem _ _ _ hmem', List.nodup_append]
          exact ⟨hnd, List.nodup_singleton n, by simpa using hnkeys⟩
        · show h2.count + 1 = (live ++ [n]).length
          rw [h2count, hcount]
          simp
        · rw [List.nodup_append]
          exact ⟨hlnd, List.nodup_singleton n, by simpa using hnlive⟩
      | some m =>
        simp only [hm2] at hk
        match hrm : h2.rd m with
        | .error e => rw [hrm] at hk; cases hk
        | .ok mr =>
          simp only [hrm, ok_bind] at hk
          have hfin : ∀ h3 : FibHeap, h3.nodes = h.nodes → h3.count = h.count →
              h' = { h3 with nodes := h3.nodes.set n h.arena.size,
                             count := h3.count + 1 } →
              h'.Inv (live ++ [n]) := by
            intro h3 h3n h3c hEq
            subst hEq
            refine ⟨?_, ?_, ?_, ?_⟩
            · show (h3.nodes.set n h.arena.size).keys.Perm (live ++ [n])
              rw [h3n, Dict.keys_set_of_not_mem _ _ _ hmem']
              exact hperm.append (List.Perm.refl [n])
            · show (h3.nodes.set n h.arena.size).keys.Nodup
              rw [h3n, Dict.keys_set_of_not_mem _ _ _ hmem', List.nodup_append]
              exact ⟨hnd, List.nodup_singleton n, by simpa using hnkeys⟩
            · show h3.count + 1 = (live ++ [n]).length
              rw [h3c, hcount]
              simp
            · rw [List.nodup_append]
              exact ⟨hlnd, List.nodup_singleton n, by simpa using hnlive⟩
          by_cases hq : Q.blt p mr.key = true
          · rw [if_pos hq] at hk
            simp only [pure_bind, ok_bind] at hk
            cases hk
            exact hfin ⟨h2.arena, some h.arena.size, h2.count, h2.nodes⟩
              h2nodes h2count rfl
          · rw [if_neg hq] at hk
            simp only [pure_bind, ok_bind] at hk
            cases hk
            exact hfin h2 h2nodes h2count rfl

theorem fib_decreaseKey_spec (h h' : FibHeap) (n : Node) (p : Q)
    (live : List Node) (hinv : h.Inv live) (hk : h.decreaseKey n p = .ok h') :
    h'.Inv live := by
  obtain ⟨hperm, hnd, hcount, hlnd⟩ := hinv
  unfold FibHeap.decreaseKey at hk
  match hlk : h.nodes.lookup n with
  | none => simp only [hlk] at hk; cases hk
  | some x =>
    simp only [hlk] at hk
    match hrx : h.rd x with
    | .error e => rw [hrx] at hk; cases hk
    | .ok xr =>
      simp only [hrx, ok_bind] at hk
      by_cases hle : Q.ble xr.key p = true
      · rw [if_pos hle] at hk
        cases hk
        exact ⟨hperm, hnd, hcount, hlnd⟩
      · rw [if_neg hle] at hk
        have hfin : ∀ h2 : FibHeap, h2.nodes = h.nodes → h2.count = h.count →
            (match h2.minIdx with
             | none => Except.error Err.runtimeError
             | some m => do
               let mr ← h2.rd m
               let xr2 ← h2.rd x
               if Q.blt xr2.key mr.key then
                 Except.ok { h2 with minIdx := some x }
               else Except.ok h2) = Except.ok h' →
            h'.Inv live := by
          intro h2 h2n h2c hk2
          match hm2 : h2.minIdx with
          | none => simp only [hm2] at hk2; cases hk2
          | some m =>
            simp only [hm2] at hk2
            match hrm : h2.rd m with
            | .error e => rw [hrm] at hk2; cases hk2
            | .ok mr =>
              simp only [hrm, ok_bind] at hk2
              match hrx2 : h2.rd x with
              | .error e => rw [hrx2] at hk2; cases hk2
              | .ok xr2 =>
                simp only [hrx2, ok_bind] at hk2
                by_cases hq : Q.blt xr2.key mr.key = true
                · rw [if_pos hq] at hk2
                  cases hk2
                  exact ⟨h2n ▸ hperm, h2n ▸ hnd, h2c ▸ hcount, hlnd⟩
                · rw [if_neg hq] at hk2
                  cases hk2
                  exact ⟨h2n ▸ hperm, h2n ▸ hnd, h2c ▸ hcount, hlnd⟩
        match hp : xr.parent with
        | none =>
          simp only [hp, pure_bind] at hk
          exact hfin (h.wr x fun m => { m with key := p }) rfl rfl hk
        | some y =>
          simp only [hp] at hk
          match hry : FibHeap.rd (h.wr x fun m => { m with key := p }) y with
          | .error e => rw [hry] at hk; cases hk
          | .ok yr =>
            simp only [hry, ok_bind] at hk
            by_cases hq2 : Q.blt p yr.key = true
            · rw [if_pos hq2] at hk
              match hct : FibHeap.cut (h.wr x fun m => { m with key := p }) x y with
              | .error e => rw [hct] at hk; cases hk
              | .ok hh =>
                have hctp := FibHeap.cut_pres _ hh x y hct
                simp only [hct, ok_bind] at hk
                match hcc : hh.cascadingCut y (hh.arena.size + 1) with
                | .error e => rw [hcc] at hk; cases hk
                | .ok h2 =>
                  have hccp := FibHeap.cascadingCut_pres _ hh h2 y hcc
                  simp only [hcc, ok_bind] at hk
                  exact hfin h2 (hccp.1.trans hctp.1) (hccp.2.trans hctp.2) hk
            · rw [if_neg hq2] at hk
              simp only [pure_bind] at hk
              exact hfin (h.wr x fun m => { m with key := p }) rfl rfl hk

theorem fib_extractMin_spec (h h' : FibHeap) (r : Option (Node × Q))
    (live : List Node) (hinv : h.Inv live) (hk : h.extractMin = .ok (r, h')) :
    (r = none ∧ h' = h ∧ h.Inv live) ∨
    (∃ np, r = some np ∧ np.1 ∈ live ∧ h'.Inv (live.erase np.1)) := by
  obtain ⟨hperm, hnd, hcount, hlnd⟩ := hinv
  unfold FibHeap.extractMin at hk
  match hm : h.minIdx with
  | none =>
    simp only [hm] at hk
    cases hk
    exact .inl ⟨rfl, rfl, hperm, hnd, hcount, hlnd⟩
  | some z =>
    simp only [hm] at hk
    match hrz : h.rd z with
    | .error e => rw [hrz] at hk; cases hk
    | .ok zr =>
      simp only [hrz, ok_bind] at hk
      have hstep2 : ∀ h1 : FibHeap, h1.nodes = h.nodes → h1.count = h.count →
          (do
            let h2 ← h1.removeFromList z
            match h2.nodes.del zr.id with
            | none => Except.error Err.keyError
            | some nodes1 =>
              let h3 : FibHeap :=
                { h2 with nodes := nodes1, count := h2.count - 1 }
              do
                let zr3 ← h3.rd z
                if zr3.right = z then
                  Except.ok (some (zr.id, zr.key), { h3 with minIdx := none })
                else do
                  let h4 ← { h3 with minIdx := some zr3.right }.consolidate
                  Except.ok (some (zr.id, zr.key), h4)) = .ok (r, h') →
          (r = none ∧ h' = h ∧ h.Inv live) ∨
          (∃ np, r = some np ∧ np.1 ∈ live ∧ h'.Inv (live.erase np.1)) := by
        intro h1 h1n h1c hk2
        match hrm : h1.removeFromList z with
        | .error e => rw [hrm] at hk2; cases hk2
        | .ok h2 =>
          have h2p := FibHeap.removeFromList_pres h1 h2 z hrm
          simp only [hrm, ok_bind] at hk2
          match hdel : h2.nodes.del zr.id with
          | none => simp only [hdel] at hk2; cases hk2
          | some nodes1 =>
            simp only [hdel] at hk2
            have h2nodes : h2.nodes = h.nodes := h2p.1.trans h1n
            have h2count : h2.count = h.count := h2p.2.trans h1c
            have hzmem : h2.nodes.mem zr.id = true :=
              Dict.del_mem_of_some _ _ _ hdel
            have hzlive : zr.id ∈ live := by
              rw [h2nodes, Dict.mem_iff_keys] at hzmem
              exact hperm.mem_iff.mp hzmem
            have hkeys1 : nodes1.keys = h.nodes.keys.erase zr.id := by
              rw [Dict.del_some_keys _ _ _ hdel, h2nodes]
            have hinv3 : nodes1.keys.Perm (live.erase zr.id) ∧
                nodes1.keys.Nodup ∧
                h2.count - 1 = (live.erase zr.id).length ∧
                (live.erase zr.id).Nodup := by
              refine ⟨?_, ?_, ?_, hlnd.erase zr.id⟩
              · rw [hkeys1]; exact hperm.erase zr.id
              · rw [hkeys1]; exact hnd.erase zr.id
              · rw [h2count, hcount, List.length_erase_of_mem hzlive]
            match hrz3 : FibHeap.rd
                { h2 with nodes := nodes1, count := h2.count - 1 } z with
            | .error e => rw [hrz3] at hk2; cases hk2
            | .ok zr3 =>
              simp only [hrz3, ok_bind] at hk2
              by_cases hright : zr3.right = z
              · rw [if_pos hright] at hk2
                cases hk2
                exact .inr ⟨(zr.id, zr.key), rfl, hzlive, hinv3⟩
              · rw [if_neg hright] at hk2
                match hcons : FibHeap.consolidate
                    { nodes := nodes1, count := h2.count - 1,
                      arena := h2.arena, minIdx := some zr3.right } with
                | .error e => rw [hcons] at hk2; cases hk2
                | .ok h4 =>
                  have h4p := FibHeap.consolidate_pres _ h4 hcons
                  simp only [hcons, ok_bind] at hk2
                  cases hk2
                  refine .inr ⟨(zr.id, zr.key), rfl, hzlive, ?_, ?_, ?_,
                    hinv3.2.2.2⟩
                  · rw [h4p.1]; exact hinv3.1
                  · rw [h4p.1]; exact hinv3.2.1
                  · rw [h4p.2]; exact hinv3.2.2.1
      match hc : zr.child with
      | none =>
        simp only [hc, pure_bind] at hk
        exact hstep2 h rfl rfl hk
      | some c =>
        simp only [hc] at hk
        match hcl : h.cycleList c with
        | .error e => rw [hcl] at hk; cases hk
        | .ok kids =>
          simp only [hcl, ok_bind] at hk
          match hfold : kids.foldlM (fun hh x => do
              let hh1 ← hh.mergeRoot x
              pure (hh1.wr x fun n => { n with parent := none })) h with
          | .error e => rw [hfold] at hk; cases hk
          | .ok h1 =>
            have h1p := FibHeap.foldMerge_pres kids h h1 hfold
            simp only [hfold, ok_bind] at hk
            exact hstep2 h1 h1p.1 h1p.2 hk

/-- The C8 invariant for a radix heap: the node map's key list is a
duplicate-free permutation of the ghost live list and `size` is its
length. -/
def RadixHeap.Inv (r : RadixHeap) (live : List Node) : Prop :=
  r.nodeMap.keys.Perm live ∧ r.nodeMap.keys.Nodup ∧ r.size = live.length ∧
  live.Nodup

theorem RadixHeap.place_spec (h h' : RadixHeap) (n : Node) (p : Q) (b : Nat)
    (hk : h.place n p b = .ok h') :
    h'.nodeMap = h.nodeMap.set n (p, b) ∧ h'.size = h.size := by
  unfold RadixHeap.place at hk
  match hb : h.buckets.get? b with
  | none => rw [hb] at hk; cases hk
  | some lst =>
    simp only [hb] at hk
    cases hk
    exact ⟨rfl, rfl⟩

theorem radix_insert_spec (h h' : RadixHeap) (n : Node) (p : Q)
    (live : List Node) (hinv : h.Inv live) (hk : h.insert n p = .ok h') :
    h'.Inv (live ++ [n]) := by
  obtain ⟨hperm, hnd, hsize, hlnd⟩ := hinv
  unfold RadixHeap.insert at hk
  by_cases hlt : Q.blt p h.last = true
  · rw [if_pos hlt] at hk; cases hk
  · rw [if_neg hlt] at hk
    by_cases hmem : h.nodeMap.mem n = true
    · rw [if_pos hmem] at hk; cases hk
    · have hmem' : h.nodeMap.mem n = false := by
        cases hb : h.nodeMap.mem n
        · rfl
        · exact absurd hb hmem
      rw [if_neg hmem] at hk
      have hnlive : n ∉ live := fun hc =>
        hmem (by rw [Dict.mem_iff_keys]; exact hperm.mem_iff.mpr hc)
      have hnkeys : n ∉ h.nodeMap.keys := fun hc =>
        hmem (by rw [Dict.mem_iff_keys]; exact hc)
      match hpl : h.place n p (h.bucketIdx p) with
      | .error e => rw [hpl] at hk; cases hk
      | .ok h1 =>
        have hps := RadixHeap.place_spec _ _ _ _ _ hpl
        simp only [hpl, ok_bind] at hk
        cases hk
        refine ⟨?_, ?_, ?_, ?_⟩
        · show h1.nodeMap.keys.Perm (live ++ [n])
          rw [hps.1, Dict.keys_set_of_not_mem _ _ _ hmem']
          exact hperm.append (List.Perm.refl [n])
        · show h1.nodeMap.keys.Nodup
          rw [hps.1, Dict.keys_set_of_not_mem _ _ _ hmem', List.nodup_append]
          exact ⟨hnd, List.nodup_singleton n, by simpa using hnkeys⟩
        · show h1.size + 1 = (live ++ [n]).length
          rw [hps.2, hsize]
          simp
        · rw [List.nodup_append]
          exact ⟨hlnd, List.nodup_singleton n, by simpa using hnlive⟩

theorem radix_decreaseKey_spec (h h' : RadixHeap) (n : Node) (p : Q)
    (live : List Node) (hinv : h.Inv live) (hk : h.decreaseKey n p = .ok h') :
    h'.Inv live := by
  obtain ⟨hperm, hnd, hsize, hlnd⟩ := hinv
  unfold RadixHeap.decreaseKey at hk
  match hlk : h.nodeMap.lookup n with
  | none => rw [hlk] at hk; cases hk
  | some old =>
    simp only [hlk] at hk
    by_cases hle : Q.ble old.1 p = true
    · rw [if_pos hle] at hk
      cases hk
      exact ⟨hperm, hnd, hsize, hlnd⟩
    · rw [if_neg hle] at hk
      by_cases hlt : Q.blt p h.last = true
      · rw [if_pos hlt] at hk; cases hk
      · rw [if_neg hlt] at hk
        have hmem : h.nodeMap.mem n = true := by
          show (h.nodeMap.lookup n).isSome = true
          rw [hlk]
          rfl
        have hps := RadixHeap.place_spec _ _ _ _ _ hk
        refine ⟨?_, ?_, ?_, hlnd⟩
        · rw [hps.1, Dict.keys_set_of_mem _ _ _ hmem]
          exact hperm
        · rw [hps.1, Dict.keys_set_of_mem _ _ _ hmem]
          exact hnd
        · rw [hps.2]
          exact hsize

theorem RadixHeap.redistribute_pres (items : List (Node × Q)) :
    ∀ (h h' : RadixHeap), h.redistribute items = .ok h' →
    h'.nodeMap.keys = h.nodeMap.keys ∧ h'.size = h.size := by
  induction items with
  | nil =>
    intro h h' hk
    unfold RadixHeap.redistribute at hk
    cases hk
    exact ⟨rfl, rfl⟩
  | cons np rest ih =>
    intro h h' hk
    unfold RadixHeap.redistribute at hk
    match hlk : h.nodeMap.lookup np.1 with
    | none =>
      simp only [hlk] at hk
      exact ih _ _ hk
    | some c =>
      simp only [hlk] at hk
      by_cases hbeq : Q.beq c.1 np.2 = true
      · rw [if_pos hbeq] at hk
        have hmem : h.nodeMap.mem np.1 = true := by
          show (h.nodeMap.lookup np.1).isSome = true
          rw [hlk]
          rfl
        match hpl : h.place np.1 np.2 (h.bucketIdx np.2) with
        | .error e => rw [hpl] at hk; cases hk
        | .ok h1 =>
          have hps := RadixHeap.place_spec _ _ _ _ _ hpl
          simp only [hpl, ok_bind] at hk
          have hrec := ih _ _ hk
          refine ⟨?_, ?_⟩
          · rw [hrec.1, hps.1, Dict.keys_set_of_mem _ _ _ hmem]
          · rw [hrec.2, hps.2]
      · rw [if_neg hbeq] at hk
        exact ih _ _ hk

theorem RadixHeap.refill_pres (fuel : Nat) :
    ∀ (h h' : RadixHeap), h.refill fuel = .ok h' →
    h'.nodeMap.keys = h.nodeMap.keys ∧ h'.size = h.size := by
  induction fuel with
  | zero => intro h h' hk; cases hk
  | succ fuel ih =>
    intro h h' hk
    unfold RadixHeap.refill at hk
    match hfe : firstNonEmpty h.buckets h.nB 1 with
    | none =>
      simp only [hfe] at hk
      by_cases hz : h.size = 0
      · rw [if_pos hz] at hk
        cases hk
        exact ⟨rfl, rfl⟩
      · rw [if_neg hz] at hk
        cases hk
    | some i =>
      simp only [hfe] at hk
      match hb : h.buckets.get? i with
      | none => rw [hb] at hk; cases hk
      | some items =>
        simp only [hb] at hk
        match hlm : liveMin h.nodeMap items none with
        | none =>
          simp only [hlm] at hk
          have hrec := ih _ _ hk
          exact hrec
        | some m =>
          simp only [hlm] at hk
          have hrec := RadixHeap.redistribute_pres _ _ _ hk
          exact hrec

theorem RadixHeap.popLive_spec (fuel : Nat) :
    ∀ (h h' : RadixHeap) (r : Option (Node × Q)),
    h.popLive fuel = .ok (r, h') →
    (r = none ∧ h'.nodeMap = h.nodeMap ∧ h'.size = h.size) ∨
    (∃ np, r = some np ∧ np.1 ∈ h.nodeMap.keys ∧
      h'.nodeMap.keys = h.nodeMap.keys.erase np.1 ∧ h'.size = h.size - 1) := by
  induction fuel with
  | zero => intro h h' r hk; cases hk
  | succ fuel ih =>
    intro h h' r hk
    unfold RadixHeap.popLive at hk
    match hb : h.buckets.get? 0 with
    | none => rw [hb] at hk; cases hk
    | some b0 =>
      simp only [hb] at hk
      match hlast : b0.getLast? with
      | none =>
        simp only [hlast] at hk
        cases hk
        exact .inl ⟨rfl, rfl, rfl⟩
      | some np =>
        simp only [hlast] at hk
        match hlk : h.nodeMap.lookup np.1 with
        | some c =>
          simp only [hlk] at hk
          by_cases hbeq : Q.beq c.1 np.2 = true
          · rw [if_pos hbeq] at hk
            match hdel : h.nodeMap.del np.1 with
            | none => rw [hdel] at hk; cases hk
            | some map1 =>
              simp only [hdel] at hk
              cases hk
              refine .inr ⟨np, rfl, ?_, ?_, rfl⟩
              · rw [← Dict.mem_iff_keys]
                exact Dict.del_mem_of_some _ _ _ hdel
              · exact Dict.del_some_keys _ _ _ hdel
          · rw [if_neg hbeq] at hk
            have hrec := ih _ _ _ hk
            exact hrec
        | none =>
          simp only [hlk] at hk
          have hrec := ih _ _ _ hk
          exact hrec

theorem radix_extractMin_spec (h h' : RadixHeap) (r : Option (Node × Q))
    (live : List Node) (hinv : h.Inv live) (hk : h.extractMin = .ok (r, h')) :
    (r = none ∧ h'.Inv live) ∨
    (∃ np, r = some np ∧ np.1 ∈ live ∧ h'.Inv (live.erase np.1)) := by
  obtain ⟨hperm, hnd, hsize, hlnd⟩ := hinv
  unfold RadixHeap.extractMin at hk
  by_cases hz : h.size = 0
  · rw [if_pos hz] at hk
    cases hk
    exact .inl ⟨rfl, hperm, hnd, hsize, hlnd⟩
  · rw [if_neg hz] at hk
    have hcase1 : ∀ h1 : RadixHeap,
        h1.nodeMap.keys = h.nodeMap.keys → h1.size = h.size →
        (do
          let rp ← h1.popLive ((h1.buckets.headD []).length + 1)
          match rp.1 with
          | some np => Except.ok (some np, rp.2)
          | none =>
            if rp.2.size = 0 then Except.ok (none, rp.2)
            else do
              let h3 ← rp.2.refill (rp.2.nB + 2)
              let rp2 ← h3.popLive ((h3.buckets.headD []).length + 1)
              match rp2.1 with
              | some np => Except.ok (some np, rp2.2)
              | none => Except.error Err.runtimeError) = .ok (r, h') →
        (r = none ∧ h'.Inv live) ∨
        (∃ np, r = some np ∧ np.1 ∈ live ∧ h'.Inv (live.erase np.1)) := by
      intro h1 h1keys h1size hk1
      obtain ⟨rp, hpop, hk1⟩ := bind_ok_exists _ _ _ hk1
      have hps := RadixHeap.popLive_spec _ _ _ _ hpop
      match hrp : rp.1 with
      | some np =>
        rw [hrp] at hk1
        cases hk1
        rcases hps with ⟨hn, _, _⟩ | ⟨np2, hsome, hmem, hkeys, hsz⟩
        · rw [hrp] at hn; cases hn
        · rw [hrp] at hsome
          have hnp2 : np2 = np := by
            have h2 := hsome.symm
            simpa using h2
          rw [hnp2] at hmem hkeys
          have hnplive : np.1 ∈ live := by
            rw [h1keys] at hmem
            exact hperm.mem_iff.mp hmem
          refine .inr ⟨np, rfl, hnplive, ?_, ?_, ?_, hlnd.erase np.1⟩
          · rw [hkeys, h1keys]
            exact hperm.erase np.1
          · rw [hkeys, h1keys]
            exact hnd.erase np.1
          · rw [hsz, h1size, hsize, List.length_erase_of_mem hnplive]
      | none =>
        rw [hrp] at hk1
        rcases hps with ⟨_, hmap, hsz⟩ | ⟨np2, hsome, _, _, _⟩
        · by_cases hz2 : rp.2.size = 0
          · rw [if_pos hz2] at hk1
            cases hk1
            refine .inl ⟨rfl, ?_, ?_, ?_, hlnd⟩
            · rw [hmap, h1keys]; exact hperm
            · rw [hmap, h1keys]; exact hnd
            · rw [hsz, h1size]; exact hsize
          · rw [if_neg hz2] at hk1
            obtain ⟨h3, href, hk1⟩ := bind_ok_exists _ _ _ hk1
            have hrf := RadixHeap.refill_pres _ _ _ href
            obtain ⟨rp2, hpop2, hk1⟩ := bind_ok_exists _ _ _ hk1
            have hps2 := RadixHeap.popLive_spec _ _ _ _ hpop2
            match hrp2 : rp2.1 with
            | some np =>
              rw [hrp2] at hk1
              cases hk1
              rcases hps2 with ⟨hn, _, _⟩ | ⟨np2, hsome2, hmem2, hkeys2, hsz2⟩
              · rw [hrp2] at hn; cases hn
              · rw [hrp2] at hsome2
                have hnp2 : np2 = np := by
                  have h2 := hsome2.symm
                  simpa using h2
                rw [hnp2] at hmem2 hkeys2
                have hnplive : np.1 ∈ live := by
                  rw [hrf.1, hmap, h1keys] at hmem2
                  exact hperm.mem_iff.mp hmem2
                refine .inr ⟨np, rfl, hnplive, ?_, ?_, ?_, hlnd.erase np.1⟩
                · rw [hkeys2, hrf.1, hmap, h1keys]
                  exact hperm.erase np.1
                · rw [hkeys2, hrf.1, hmap, h1keys]
                  exact hnd.erase np.1
                · rw [hsz2, hrf.2, hsz, h1size, hsize,
                    List.length_erase_of_mem hnplive]
            | none =>
              rw [hrp2] at hk1
              cases hk1
        · rw [hrp] at hsome; cases hsome
    match hb : h.buckets.get? 0 with
    | none =>
      simp only [hb] at hk
      obtain ⟨h1, hh1, hk⟩ := bind_ok_exists _ _ _ hk
      cases hh1
    | some b0 =>
      simp only [hb] at hk
      by_cases hbe : b0.isEmpty = true
      · rw [if_pos hbe] at hk
        obtain ⟨h1, hh1, hk⟩ := bind_ok_exists _ _ _ hk
        have hrf := RadixHeap.refill_pres _ _ _ hh1
        exact hcase1 h1 hrf.1 hrf.2 hk
      · rw [if_neg hbe] at hk
        obtain ⟨h1, hh1, hk⟩ := bind_ok_exists _ _ _ hk
        cases hh1
        exact hcase1 h rfl rfl hk

/-- A successful `Except.map` factors through a successful argument. -/
theorem map_ok_exists {α β : Type} (g : α → β) (e : Except Err α) (y : β)
    (h : e.map g = .ok y) : ∃ x, e = .ok x ∧ y = g x := by
  match e with
  | .error err => cases h
  | .ok a =>
    cases h
    exact ⟨a, rfl, rfl⟩

/-- The C8 invariant, dispatched over the three queue variants. -/
def Heap.Inv : Heap → List Node → Prop
  | .binary b, live => BinaryHeap.Inv b live
  | .fib f, live => FibHeap.Inv f live
  | .radix rx, live => RadixHeap.Inv rx live

theorem heap_insert_spec (h h' : Heap) (n : Node) (p : Q) (live : List Node)
    (hinv : h.Inv live) (hk : h.insert n p = .ok h') : h'.Inv (live ++ [n]) := by
  match h with
  | .binary b =>
    obtain ⟨b', hb, hy⟩ := map_ok_exists _ _ _ hk
    subst hy
    exact binary_insert_spec _ _ _ _ _ hinv hb
  | .fib f =>
    obtain ⟨f', hb, hy⟩ := map_ok_exists _ _ _ hk
    subst hy
    exact fib_insert_spec _ _ _ _ _ hinv hb
  | .radix rx =>
    obtain ⟨rx', hb, hy⟩ := map_ok_exists _ _ _ hk
    subst hy
    exact radix_insert_spec _ _ _ _ _ hinv hb

theorem heap_decreaseKey_spec (h h' : Heap) (n : Node) (p : Q)
    (live : List Node) (hinv : h.Inv live) (hk : h.decreaseKey n p = .ok h') :
    h'.Inv live := by
  match h with
  | .binary b =>
    obtain ⟨b', hb, hy⟩ := map_ok_exists _ _ _ hk
    subst hy
    exact binary_decreaseKey_spec _ _ _ _ _ hinv hb
  | .fib f =>
    obtain ⟨f', hb, hy⟩ := map_ok_exists _ _ _ hk
    subst hy
    exact fib_decreaseKey_spec _ _ _ _ _ hinv hb
  | .radix rx =>
    obtain ⟨rx', hb, hy⟩ := map_ok_exists _ _ _ hk
    subst hy
    exact radix_decreaseKey_spec _ _ _ _ _ hinv hb

theorem heap_extractMin_spec (h h' : Heap) (r : Option (Node × Q))
    (live : List Node) (hinv : h.Inv live) (hk : h.extractMin = .ok (r, h')) :
    (r = none ∧ h'.Inv live) ∨
    (∃ np, r = some np ∧ np.1 ∈ live ∧ h'.Inv (live.erase np.1)) := by
  match h with
  | .binary b =>
    obtain ⟨pr, hb, hy⟩ := map_ok_exists _ _ _ hk
    injection hy with hr hh
    subst hr
    subst hh
    rcases binary_extractMin_spec b pr.2 pr.1 live hinv hb with
      ⟨hn, hbe, hi⟩ | ⟨np, hs, hm, hi⟩
    · refine .inl ⟨hn, ?_⟩
      show BinaryHeap.Inv pr.2 live
      rw [hbe]
      exact hi
    · exact .inr ⟨np, hs, hm, hi⟩
  | .fib f =>
    obtain ⟨pr, hb, hy⟩ := map_ok_exists _ _ _ hk
    injection hy with hr hh
    subst hr
    subst hh
    rcases fib_extractMin_spec f pr.2 pr.1 live hinv hb with
      ⟨hn, hbe, hi⟩ | ⟨np, hs, hm, hi⟩
    · refine .inl ⟨hn, ?_⟩
      show FibHeap.Inv pr.2 live
      rw [hbe]
      exact hi
    · exact .inr ⟨np, hs, hm, hi⟩
  | .radix rx =>
    obtain ⟨pr, hb, hy⟩ := map_ok_exists _ _ _ hk
    injection hy with hr hh
    subst hr
    subst hh
    rcases radix_extractMin_spec rx pr.2 pr.1 live hinv hb with
      ⟨hn, hi⟩ | ⟨np, hs, hm, hi⟩
    · exact .inl ⟨hn, hi⟩
    · exact .inr ⟨np, hs, hm, hi⟩

theorem mkHeap_inv (ht : String) (mk : Q) (h0 : Heap)
    (hk : mkHeap ht mk = .ok h0) : h0.Inv [] := by
  unfold mkHeap at hk
  split at hk
  · cases hk
    exact ⟨List.Perm.nil, List.nodup_nil, List.Perm.nil, List.nodup_nil⟩
  · cases hk
    exact ⟨List.Perm.nil, List.nodup_nil, rfl, List.nodup_nil⟩
  · cases hk
    exact ⟨List.Perm.nil, List.nodup_nil, rfl, List.nodup_nil⟩
  · cases hk

/-- A priority-queue operation of the interface shared by the three
variants. -/
inductive QOp where
  | ins (n : Node) (p : Q)
  | dec (n : Node) (p : Q)
  | ext
  deriving Repr

/-- Run a sequence of operations left to right, threading the ghost list of
live nodes: a successful `insert` appends its node, a successful
`extract_min` erases the returned node, `decrease_key` leaves the list
unchanged. -/
def runOps : List QOp → Heap → List Node → Except Err (Heap × List Node)
  | [], h, live => .ok (h, live)
  | QOp.ins n p :: ops, h, live =>
    match h.insert n p with
    | .error e => .error e
    | .ok h1 => runOps ops h1 (live ++ [n])
  | QOp.dec n p :: ops, h, live =>
    match h.decreaseKey n p with
    | .error e => .error e
    | .ok h1 => runOps ops h1 live
  | QOp.ext :: ops, h, live =>
    match h.extractMin with
    | .error e => .error e
    | .ok (none, h1) => runOps ops h1 live
    | .ok (some np, h1) => runOps ops h1 (live.erase np.1)

theorem runOps_inv (ops : List QOp) :
    ∀ (h : Heap) (live : List Node) (hp : Heap × List Node),
    h.Inv live → runOps ops h live = .ok hp → hp.1.Inv hp.2 := by
  induction ops with
  | nil =>
    intro h live hp hinv hk
    cases hk
    exact hinv
  | cons op ops ih =>
    intro h live hp hinv hk
    match op with
    | QOp.ins n p =>
      unfold runOps at hk
      match hi : h.insert n p with
      | .error e => rw [hi] at hk; cases hk
      | .ok h1 =>
        simp only [hi] at hk
        exact ih _ _ _ (heap_insert_spec _ _ _ _ _ hinv hi) hk
    | QOp.dec n p =>
      unfold runOps at hk
      match hi : h.decreaseKey n p with
      | .error e => rw [hi] at hk; cases hk
      | .ok h1 =>
        simp only [hi] at hk
        exact ih _ _ _ (heap_decreaseKey_spec _ _ _ _ _ hinv hi) hk
    | QOp.ext =>
      unfold runOps at hk
      match he : h.extractMin with
      | .error e => rw [he] at hk; cases hk
      | .ok (none, h1) =>
        simp only [he] at hk
        rcases heap_extractMin_spec _ _ _ _ hinv he with ⟨_, hi⟩ | ⟨np, hs, _, _⟩
        · exact ih _ _ _ hi hk
        · cases hs
      | .ok (some np, h1) =>
        simp only [he] at hk
        rcases heap_extractMin_spec _ _ _ _ hinv he with
          ⟨hn, _⟩ | ⟨np2, hs, hm, hi⟩
        · cases hn
        · have hnp : np2 = np := by
            have h2 := hs.symm
            simpa using h2
          rw [hnp] at hi
          exact ih _ _ _ hi hk

theorem Heap.Inv_final (h : Heap) (live : List Node) (hinv : h.Inv live) :
    h.size = live.length ∧ (∀ n, h.contains n = true ↔ n ∈ live) ∧
    live.Nodup := by
  match h with
  | .binary b =>
    obtain ⟨hpk, hnd, hhp, hlnd⟩ := hinv
    refine ⟨?_, ?_, hlnd⟩
    · show b.heap.length = live.length
      have h2 := hhp.length_eq
      simpa using h2
    · intro n
      show b.pos.mem n = true ↔ n ∈ live
      rw [Dict.mem_iff_keys]
      exact hpk.mem_iff
  | .fib f =>
    obtain ⟨hpk, hnd, hc, hlnd⟩ := hinv
    refine ⟨hc, ?_, hlnd⟩
    intro n
    show f.nodes.mem n = true ↔ n ∈ live
    rw [Dict.mem_iff_keys]
    exact hpk.mem_iff
  | .radix rx =>
    obtain ⟨hpk, hnd, hc, hlnd⟩ := hinv
    refine ⟨hc, ?_, hlnd⟩
    intro n
    show rx.nodeMap.mem n = true ↔ n ∈ live
    rw [Dict.mem_iff_keys]
    exact hpk.mem_iff

/-- C8: for each of the three queue variants and every sequence of
operations that completes without an error, `size()` equals the number of
distinct node identifiers currently live (the ghost list is
duplicate-free), and `contains(n)` holds exactly when `n` is live; since a
successful `decrease_key` leaves the ghost list unchanged, it neither
changes `size()` nor creates a second live entry for a node. -/
theorem queue_live_uniqueness (ht : String) (mk : Q) (ops : List QOp)
    (h0 : Heap) (hp : Heap × List Node)
    (hmk : mkHeap ht mk = .ok h0) (hrun : runOps ops h0 [] = .ok hp) :
    hp.1.size = hp.2.length ∧
    (∀ n, hp.1.contains n = true ↔ n ∈ hp.2) ∧ hp.2.Nodup :=
  Heap.Inv_final hp.1 hp.2
    (runOps_inv ops h0 [] hp (mkHeap_inv ht mk h0 hmk) hrun)

/-- Concrete operation sequence for the C8 witness run. -/
def qluOps : List QOp := [QOp.ins 5 3, QOp.ins 7 1, QOp.dec 5 0, QOp.ext]

/-- The state reached by the C8 witness run. -/
def qluRes : Heap × List Node :=
  ((runOps qluOps (Heap.binary BinaryHeap.init) []).toOption).getD
    (Heap.binary BinaryHeap.init, [])

theorem queue_live_uniqueness_witness :
    mkHeap "binary" 0 = .ok (Heap.binary BinaryHeap.init) ∧
    runOps qluOps (Heap.binary BinaryHeap.init) [] = .ok qluRes ∧
    qluRes.1.size = qluRes.2.length ∧
    (qluRes.1.contains 7 = true ↔ 7 ∈ qluRes.2) ∧ qluRes.2.Nodup := by
  have hq := queue_live_uniqueness "binary" 0 qluOps
    (Heap.binary BinaryHeap.init) qluRes (by rfl) (by rfl)
  exact ⟨rfl, rfl, hq.1, hq.2.1 7, hq.2.2⟩

end SPC
